import Mathlib

/-!
Verification of the ResLife community homology engine
(`community_homology_engine.hpp`).  The C++ source is shallowly embedded:
floats become rationals, `std::string` becomes `String`, `std::set` becomes
`Finset`, the mutable union-find parent vector becomes an explicitly threaded
`Array Nat`, and the recursive `find` with path compression becomes a
fuel-indexed function (fuel `parent.size` always suffices; this is proved).
-/

namespace ResLife

/-! ## Union-find (CommunityGraph::h0 / PersistentHomology::compute) -/

/-- One parent-pointer step; out-of-range indices are fixed points
(the C++ accesses are separately modelled by the `Checked` variants). -/
def ufStep (p : Array Nat) (x : Nat) : Nat := p.getD x x

/-- `find` with path compression, fuel-indexed.  Mirrors
`find(x) { if (parent[x] != x) parent[x] = find(parent[x]); return parent[x]; }`
returning the root together with the compressed parent array. -/
def ufFind : Nat → Array Nat → Nat → Nat × Array Nat
  | 0, p, x => (x, p)
  | fuel + 1, p, x =>
    let px := ufStep p x
    if px = x then (x, p)
    else
      let rp := ufFind fuel p px
      (rp.1, rp.2.setD x rp.1)

/-- Ghost: iterate the parent pointer `k` times. -/
def ufIter (p : Array Nat) : Nat → Nat → Nat
  | 0, x => x
  | k + 1, x => ufIter p k (ufStep p x)

/-- Ghost root: iterate the parent pointer `p.size` times. -/
def ufRoot (p : Array Nat) (x : Nat) : Nat := ufIter p p.size x

def IsRoot (p : Array Nat) (x : Nat) : Prop := ufStep p x = x

instance (p : Array Nat) (x : Nat) : Decidable (IsRoot p x) := by
  unfold IsRoot; infer_instance

/-- Well-formed parent array: pointers stay in range and `p.size` iterations
reach a fixed point. -/
def UFWF (p : Array Nat) : Prop :=
  ∀ x, x < p.size → ufStep p x < p.size ∧ IsRoot p (ufRoot p x)

theorem ufStep_lt {p : Array Nat} (h : UFWF p) {x : Nat} (hx : x < p.size) :
    ufStep p x < p.size := (h x hx).1

theorem ufIter_add (p : Array Nat) (a b x : Nat) :
    ufIter p (a + b) x = ufIter p b (ufIter p a x) := by
  induction a generalizing x with
  | zero => simp [ufIter]
  | succ a ih =>
    have : a + 1 + b = (a + b) + 1 := by omega
    rw [this]
    simp only [ufIter]
    exact ih (ufStep p x)

theorem ufIter_succ_outer (p : Array Nat) (k x : Nat) :
    ufIter p (k + 1) x = ufStep p (ufIter p k x) := by
  rw [ufIter_add p k 1 x]
  rfl

theorem ufIter_of_isRoot {p : Array Nat} {x : Nat} (h : IsRoot p x) (k : Nat) :
    ufIter p k x = x := by
  induction k with
  | zero => rfl
  | succ k ih =>
    simp only [ufIter]
    rw [show ufStep p x = x from h, ih]

theorem ufIter_stable {p : Array Nat} {k x : Nat}
    (h : IsRoot p (ufIter p k x)) {m : Nat} (hm : k ≤ m) :
    ufIter p m x = ufIter p k x := by
  obtain ⟨d, rfl⟩ := Nat.exists_eq_add_of_le hm
  rw [ufIter_add, ufIter_of_isRoot h]

theorem ufIter_lt {p : Array Nat} (h : UFWF p) {x : Nat} (hx : x < p.size)
    (k : Nat) : ufIter p k x < p.size := by
  induction k generalizing x with
  | zero => exact hx
  | succ k ih =>
    simp only [ufIter]
    exact ih (ufStep_lt h hx)

theorem isRoot_ufRoot {p : Array Nat} (h : UFWF p) {x : Nat} (hx : x < p.size) :
    IsRoot p (ufRoot p x) := (h x hx).2

theorem ufRoot_lt {p : Array Nat} (h : UFWF p) {x : Nat} (hx : x < p.size) :
    ufRoot p x < p.size := ufIter_lt h hx p.size

theorem ufRoot_of_isRoot {p : Array Nat} {x : Nat} (h : IsRoot p x) :
    ufRoot p x = x := ufIter_of_isRoot h p.size

theorem ufRoot_step {p : Array Nat} (h : UFWF p) {x : Nat} (hx : x < p.size) :
    ufRoot p (ufStep p x) = ufRoot p x := by
  have h1 : ufRoot p (ufStep p x) = ufIter p (p.size + 1) x := by
    have : p.size + 1 = 1 + p.size := by omega
    rw [ufRoot, this, ufIter_add]
    rfl
  rw [h1, ufIter_stable (isRoot_ufRoot h hx) (Nat.le_succ _)]
  rfl

theorem ufRoot_ufIter {p : Array Nat} (h : UFWF p) {x : Nat} (hx : x < p.size)
    (k : Nat) : ufRoot p (ufIter p k x) = ufRoot p x := by
  induction k generalizing x with
  | zero => rfl
  | succ k ih =>
    simp only [ufIter]
    rw [ih (ufStep_lt h hx), ufRoot_step h hx]

theorem ufRoot_ufRoot {p : Array Nat} (h : UFWF p) {x : Nat} (hx : x < p.size) :
    ufRoot p (ufRoot p x) = ufRoot p x := ufRoot_ufIter h hx p.size

/-- If `x` is in range, the iterates reach a root strictly before `p.size`
steps: the minimal root index is at most `p.size - 1` (chain nodes up to the
first root are pairwise distinct and all in range). -/
theorem uf_minimal_root_lt {p : Array Nat} (h : UFWF p) {x : Nat}
    (hx : x < p.size)
    (hex : ∃ k, IsRoot p (ufIter p k x)) :
    Nat.find hex < p.size := by
  by_contra hge
  push_neg at hge
  -- pigeonhole on the first `p.size + 1` iterates, which all lie in `range p.size`
  have hmaps : ∀ k ∈ Finset.range (p.size + 1),
      ufIter p k x ∈ Finset.range p.size := by
    intro k _
    exact Finset.mem_range.mpr (ufIter_lt h hx k)
  have hcard : (Finset.range p.size).card < (Finset.range (p.size + 1)).card := by
    simp
  obtain ⟨i, hi, j, hj, hij, heq⟩ :=
    Finset.exists_ne_map_eq_of_card_lt_of_maps_to hcard hmaps
  rcases Nat.lt_or_ge i j with hlt | hge2
  · -- wlog i < j
    have hper : ∀ d, ufIter p (i + d) x = ufIter p (j + d) x := by
      intro d
      rw [ufIter_add, ufIter_add, heq]
    have hjle : j ≤ p.size := Nat.lt_succ_iff.mp (Finset.mem_range.mp hj)
    have hkj : j ≤ Nat.find hex := le_trans hjle hge
    have hc : Nat.find hex - (j - i) < Nat.find hex := by omega
    have hcfix : IsRoot p (ufIter p (Nat.find hex - (j - i)) x) := by
      have : Nat.find hex - (j - i) + (j - i) = Nat.find hex := by omega
      have h2 : ufIter p (i + (Nat.find hex - j)) x
          = ufIter p (j + (Nat.find hex - j)) x := hper _
      have e1 : i + (Nat.find hex - j) = Nat.find hex - (j - i) := by omega
      have e2 : j + (Nat.find hex - j) = Nat.find hex := by omega
      rw [e1, e2] at h2
      rw [h2]
      exact Nat.find_spec hex
    exact Nat.find_min hex hc hcfix
  · have hlt2 : j < i := by
      rcases Nat.lt_or_ge j i with h' | h'
      · exact h'
      · omega
    have hper : ∀ d, ufIter p (j + d) x = ufIter p (i + d) x := by
      intro d
      rw [ufIter_add, ufIter_add, heq]
    have hile : i ≤ p.size := Nat.lt_succ_iff.mp (Finset.mem_range.mp hi)
    have hki : i ≤ Nat.find hex := le_trans hile hge
    have hc : Nat.find hex - (i - j) < Nat.find hex := by omega
    have hcfix : IsRoot p (ufIter p (Nat.find hex - (i - j)) x) := by
      have h2 : ufIter p (j + (Nat.find hex - i)) x
          = ufIter p (i + (Nat.find hex - i)) x := hper _
      have e1 : j + (Nat.find hex - i) = Nat.find hex - (i - j) := by omega
      have e2 : i + (Nat.find hex - i) = Nat.find hex := by omega
      rw [e1, e2] at h2
      rw [h2]
      exact Nat.find_spec hex
    exact Nat.find_min hex hc hcfix

theorem uf_exists_root {p : Array Nat} (h : UFWF p) {x : Nat}
    (hx : x < p.size) : ∃ k, IsRoot p (ufIter p k x) :=
  ⟨p.size, isRoot_ufRoot h hx⟩

theorem ufStep_setD (p : Array Nat) (i v y : Nat) :
    ufStep (p.setD i v) y = if y = i ∧ i < p.size then v else ufStep p y := by
  unfold ufStep Array.setD
  split
  · next hi =>
    rcases eq_or_ne y i with rfl | hne
    · simp [Array.getD, hi, Array.get_set_eq]
    · simp only [hne, false_and, if_false]
      unfold Array.getD
      simp only [Array.size_set]
      split
      · next hy => simp [Array.get_set, hy, Ne.symm hne]
      · rfl
  · next hi => simp [hi]

theorem size_setD (p : Array Nat) (i v : Nat) : (p.setD i v).size = p.size := by
  unfold Array.setD
  split <;> simp

/-- Redirecting a non-root node straight to its root (path compression step)
preserves well-formedness, every ghost root, and the set of roots. -/
theorem uf_compress_spec {p : Array Nat} (hwf : UFWF p) {x : Nat}
    (hx : x < p.size) (hnr : ¬IsRoot p x) :
    (p.setD x (ufRoot p x)).size = p.size ∧
    UFWF (p.setD x (ufRoot p x)) ∧
    (∀ y, ufRoot (p.setD x (ufRoot p x)) y = ufRoot p y) ∧
    (∀ z, IsRoot (p.setD x (ufRoot p x)) z ↔ IsRoot p z) := by
  set r := ufRoot p x with hr
  set q := p.setD x r with hq
  have hsz : q.size = p.size := size_setD p x r
  have hrltn : r < p.size := ufRoot_lt hwf hx
  have hrroot : IsRoot p r := isRoot_ufRoot hwf hx
  have hrx : r ≠ x := by
    intro h
    exact hnr (h ▸ hrroot)
  have hstep : ∀ y, ufStep q y = if y = x then r else ufStep p y := by
    intro y
    rw [hq, ufStep_setD]
    rcases eq_or_ne y x with rfl | hne
    · simp [hx]
    · simp [hne]
  have hroots : ∀ z, IsRoot q z ↔ IsRoot p z := by
    intro z
    unfold IsRoot
    rw [hstep]
    rcases eq_or_ne z x with rfl | hne
    · rw [if_pos rfl]
      exact iff_of_false hrx hnr
    · simp [hne]
  have hrootq : ∀ y, ufRoot q y = ufRoot p y := by
    intro y
    rcases Nat.lt_or_ge y p.size with hy | hy
    · -- invariant along the iterates
      have main : ∀ k, ufIter q k y = ufIter p k y ∨
          (ufRoot p y = r ∧ ufIter q k y = r) := by
        intro k
        induction k with
        | zero => exact Or.inl rfl
        | succ k ih =>
          rcases ih with heq | ⟨hrt, heq⟩
          · rcases eq_or_ne (ufIter p k y) x with hzx | hzx
            · right
              constructor
              · have h3 : ufRoot p y = ufRoot p (ufIter p k y) :=
                  (ufRoot_ufIter hwf hy k).symm
                rw [h3, hzx]
              · rw [ufIter_succ_outer, heq, hzx, hstep]
                simp
            · left
              rw [ufIter_succ_outer, ufIter_succ_outer, heq, hstep,
                if_neg hzx]
          · right
            refine ⟨hrt, ?_⟩
            rw [ufIter_succ_outer, heq, hstep, if_neg hrx]
            exact hrroot
      have hfin := main p.size
      rw [ufRoot, hsz]
      rcases hfin with heq | ⟨hrt, heq⟩
      · rw [heq]; rfl
      · rw [heq, hrt]
    · -- out of range: fixed point in both arrays
      have hyq : ufStep q y = y := by
        rw [hstep, if_neg]
        · unfold ufStep Array.getD
          rw [dif_neg (by omega)]
        · omega
      have hyp : ufStep p y = y := by
        unfold ufStep Array.getD
        rw [dif_neg (by omega)]
      rw [ufRoot, ufRoot, ufIter_of_isRoot hyq, ufIter_of_isRoot hyp]
  refine ⟨hsz, ?_, hrootq, hroots⟩
  intro y hy
  rw [hsz] at hy
  constructor
  · rw [hstep]
    rcases eq_or_ne y x with rfl | hne
    · simpa [hsz] using hrltn
    · rw [if_neg hne, hsz]
      exact ufStep_lt hwf hy
  · rw [hrootq]
    have := isRoot_ufRoot hwf hy
    rw [hroots]
    exact this

/-- Pointing the root `r1` at another root `r2` merges exactly the class of
`r1` into that of `r2`. -/
theorem uf_union_spec {p : Array Nat} (hwf : UFWF p) {r1 r2 : Nat}
    (h1 : r1 < p.size) (h2 : r2 < p.size)
    (hr1 : IsRoot p r1) (hr2 : IsRoot p r2) (hne : r1 ≠ r2) :
    (p.setD r1 r2).size = p.size ∧
    UFWF (p.setD r1 r2) ∧
    (∀ y, ufRoot (p.setD r1 r2) y =
      if ufRoot p y = r1 then r2 else ufRoot p y) := by
  set q := p.setD r1 r2 with hq
  have hsz : q.size = p.size := size_setD p r1 r2
  have hstep : ∀ y, ufStep q y = if y = r1 then r2 else ufStep p y := by
    intro y
    rw [hq, ufStep_setD]
    rcases eq_or_ne y r1 with rfl | hne2
    · simp [h1]
    · simp [hne2]
  have hr2q : IsRoot q r2 := by
    unfold IsRoot
    rw [hstep, if_neg (Ne.symm hne)]
    exact hr2
  have hrootq : ∀ y, ufRoot q y =
      if ufRoot p y = r1 then r2 else ufRoot p y := by
    intro y
    rcases Nat.lt_or_ge y p.size with hy | hy
    · rcases eq_or_ne (ufRoot p y) r1 with hyr | hyr
      · -- the chain from y reaches r1, then jumps to r2
        have hex := uf_exists_root hwf hy
        set m := Nat.find hex with hm
        have hmlt : m < p.size := uf_minimal_root_lt hwf hy hex
        have hfix : IsRoot p (ufIter p m y) := Nat.find_spec hex
        have hiter_m : ufIter p m y = r1 := by
          rw [← hyr]
          exact (ufIter_stable hfix (Nat.le_of_lt hmlt)).symm
        have hsame : ∀ j, j ≤ m → ufIter q j y = ufIter p j y := by
          intro j hj
          induction j with
          | zero => rfl
          | succ j ih =>
            have hj2 : j ≤ m := by omega
            have hjlt : j < m := by omega
            have hnotroot : ¬IsRoot p (ufIter p j y) := Nat.find_min hex hjlt
            have hnr1 : ufIter p j y ≠ r1 := by
              intro h
              exact hnotroot (h ▸ hr1)
            rw [ufIter_succ_outer, ufIter_succ_outer, ih hj2, hstep,
              if_neg hnr1]
        have hqm1 : ufIter q (m + 1) y = r2 := by
          rw [ufIter_succ_outer, hsame m le_rfl, hiter_m, hstep, if_pos rfl]
        have : ufIter q q.size y = ufIter q (m + 1) y := by
          apply ufIter_stable
          · rw [hqm1]; exact hr2q
          · omega
        rw [ufRoot, this, hqm1, if_pos hyr]
      · -- the chain from y never meets r1
        have hsame : ∀ j, ufIter q j y = ufIter p j y := by
          intro j
          induction j with
          | zero => rfl
          | succ j ih =>
            have hnr1 : ufIter p j y ≠ r1 := by
              intro h
              have h3 := ufRoot_ufIter hwf hy j
              rw [h, ufRoot_of_isRoot hr1] at h3
              exact hyr h3.symm
            rw [ufIter_succ_outer, ufIter_succ_outer, ih, hstep,
              if_neg hnr1]
        rw [ufRoot, hsz, hsame, if_neg hyr]
        rfl
    · -- out of range
      have hyq : ufStep q y = y := by
        rw [hstep, if_neg (by omega)]
        unfold ufStep Array.getD
        rw [dif_neg (by omega)]
      have hyp : ufStep p y = y := by
        unfold ufStep Array.getD
        rw [dif_neg (by omega)]
      have hyr : ufRoot p y = y := ufRoot_of_isRoot hyp
      rw [ufRoot, ufIter_of_isRoot hyq, hyr, if_neg (by omega)]
  refine ⟨hsz, ?_, hrootq⟩
  intro y hy
  rw [hsz] at hy
  constructor
  · rw [hstep]
    rcases eq_or_ne y r1 with rfl | hne2
    · simpa [hsz] using h2
    · rw [if_neg hne2, hsz]
      exact ufStep_lt hwf hy
  · rw [hrootq]
    split
    · rw [show IsRoot q r2 ↔ True from iff_of_true hr2q trivial]
      trivial
    · next hyr =>
      have hroot : IsRoot p (ufRoot p y) := isRoot_ufRoot hwf hy
      unfold IsRoot
      rw [hstep, if_neg hyr]
      exact hroot

/-- The minimal number of steps to a root decreases by one along the chain. -/
theorem uf_find_min_step {p : Array Nat} (hwf : UFWF p) {x : Nat}
    (hx : x < p.size) (hnr : ¬IsRoot p x)
    (hex : ∃ k, IsRoot p (ufIter p k x))
    (hex2 : ∃ k, IsRoot p (ufIter p k (ufStep p x))) :
    Nat.find hex2 + 1 = Nat.find hex := by
  have hshift : ∀ k, ufIter p k (ufStep p x) = ufIter p (k + 1) x := by
    intro k
    rw [Nat.add_comm k 1, ufIter_add]
    rfl
  have hpos : 0 < Nat.find hex := by
    rcases Nat.eq_zero_or_pos (Nat.find hex) with h0 | h
    · have h1 := Nat.find_spec hex
      rw [h0] at h1
      exact absurd h1 hnr
    · exact h
  have hle : Nat.find hex2 ≤ Nat.find hex - 1 := by
    apply Nat.find_le
    rw [hshift]
    have : Nat.find hex - 1 + 1 = Nat.find hex := by omega
    rw [this]
    exact Nat.find_spec hex
  have hge : Nat.find hex - 1 ≤ Nat.find hex2 := by
    by_contra hlt
    push_neg at hlt
    have := Nat.find_spec hex2
    rw [hshift] at this
    have hmin := Nat.find_min hex
      (show Nat.find hex2 + 1 < Nat.find hex by omega)
    exact hmin this
  omega

/-- Full specification of path-compressing `find` when the fuel exceeds the
chain length: it returns the ghost root and preserves sizes, well-formedness,
all ghost roots, and the set of roots. -/
theorem ufFind_spec (fuel : Nat) (p : Array Nat) (x : Nat)
    (hwf : UFWF p) (hx : x < p.size)
    (hex : ∃ k, IsRoot p (ufIter p k x))
    (hfuel : Nat.find hex < fuel) :
    (ufFind fuel p x).1 = ufRoot p x ∧
    (ufFind fuel p x).2.size = p.size ∧
    UFWF (ufFind fuel p x).2 ∧
    (∀ y, ufRoot (ufFind fuel p x).2 y = ufRoot p y) ∧
    (∀ z, IsRoot (ufFind fuel p x).2 z ↔ IsRoot p z) := by
  induction fuel generalizing p x with
  | zero => omega
  | succ fuel ih =>
    by_cases hroot : IsRoot p x
    · have hfind : ufFind (fuel + 1) p x = (x, p) := by
        unfold ufFind
        rw [if_pos (show ufStep p x = x from hroot)]
      rw [hfind]
      exact ⟨(ufRoot_of_isRoot hroot).symm, rfl, hwf, fun y => rfl,
        fun z => Iff.rfl⟩
    · have hpxlt : ufStep p x < p.size := ufStep_lt hwf hx
      have hex2 : ∃ k, IsRoot p (ufIter p k (ufStep p x)) := by
        exact ⟨p.size, isRoot_ufRoot hwf hpxlt⟩
      have hfuel2 : Nat.find hex2 < fuel := by
        have := uf_find_min_step hwf hx hroot hex hex2
        omega
      obtain ⟨ihr, ihsz, ihwf, ihroots, ihisroot⟩ :=
        ih p (ufStep p x) hwf hpxlt hex2 hfuel2
      have hfind : ufFind (fuel + 1) p x =
          ((ufFind fuel p (ufStep p x)).1,
           (ufFind fuel p (ufStep p x)).2.setD x (ufFind fuel p (ufStep p x)).1) := by
        conv_lhs => unfold ufFind
        rw [if_neg (show ¬ufStep p x = x from hroot)]
      have hxp1 : x < (ufFind fuel p (ufStep p x)).2.size := by
        rw [ihsz]; exact hx
      have hnr1 : ¬IsRoot (ufFind fuel p (ufStep p x)).2 x :=
        fun h => hroot ((ihisroot x).mp h)
      have key : (ufFind fuel p (ufStep p x)).1
          = ufRoot (ufFind fuel p (ufStep p x)).2 x := by
        rw [ihr, ihroots x, ufRoot_step hwf hx]
      obtain ⟨csz, cwf, croots, cisroot⟩ := uf_compress_spec ihwf hxp1 hnr1
      rw [hfind, key]
      refine ⟨?_, ?_, ?_, ?_, ?_⟩
      · show ufRoot (ufFind fuel p (ufStep p x)).2 x = ufRoot p x
        rw [ihroots x]
      · show ((ufFind fuel p (ufStep p x)).2.setD x
            (ufRoot (ufFind fuel p (ufStep p x)).2 x)).size = p.size
        rw [csz, ihsz]
      · exact cwf
      · intro y
        show ufRoot ((ufFind fuel p (ufStep p x)).2.setD x
            (ufRoot (ufFind fuel p (ufStep p x)).2 x)) y = ufRoot p y
        rw [croots y, ihroots y]
      · intro z
        show IsRoot ((ufFind fuel p (ufStep p x)).2.setD x
            (ufRoot (ufFind fuel p (ufStep p x)).2 x)) z ↔ IsRoot p z
        rw [cisroot z, ihisroot z]

/-- `ufFind` with fuel `p.size`, as used throughout the embedding. -/
theorem ufFind_size_spec (p : Array Nat) (x : Nat)
    (hwf : UFWF p) (hx : x < p.size) :
    (ufFind p.size p x).1 = ufRoot p x ∧
    (ufFind p.size p x).2.size = p.size ∧
    UFWF (ufFind p.size p x).2 ∧
    (∀ y, ufRoot (ufFind p.size p x).2 y = ufRoot p y) ∧
    (∀ z, IsRoot (ufFind p.size p x).2 z ↔ IsRoot p z) :=
  ufFind_spec p.size p x hwf hx (uf_exists_root hwf hx)
    (uf_minimal_root_lt hwf hx (uf_exists_root hwf hx))

/-- The identity parent array `0, 1, ..., n-1` used to initialise every
union-find in the source (`std::iota`). -/
def ufInit (n : Nat) : Array Nat := Array.range n

theorem ufStep_ufInit (n x : Nat) : ufStep (ufInit n) x = x := by
  unfold ufStep ufInit Array.getD
  split
  · next h =>
    simp only [Array.size_range] at h
    simp [Array.getElem_range]
  · rfl

theorem size_ufInit (n : Nat) : (ufInit n).size = n := Array.size_range

theorem ufRoot_ufInit (n x : Nat) : ufRoot (ufInit n) x = x :=
  ufIter_of_isRoot (ufStep_ufInit n x) _

theorem ufInit_wf (n : Nat) : UFWF (ufInit n) := by
  intro x hx
  rw [size_ufInit] at hx
  refine ⟨?_, ?_⟩
  · rw [ufStep_ufInit, size_ufInit]; exact hx
  · rw [ufRoot_ufInit]
    exact ufStep_ufInit n x

/-! ## Time utilities (`TimeBlock`) -/

/-- `TimeBlock`: a day code plus start/end minutes from midnight
(`uint16_t` in the source). -/
structure TimeBlock where
  day : Nat
  startMin : Nat
  endMin : Nat
deriving DecidableEq

/-- `TimeBlock::overlaps`. -/
def TimeBlock.overlaps (b o : TimeBlock) : Bool :=
  if b.day ≠ o.day then false
  else ¬(b.endMin ≤ o.startMin ∨ b.startMin ≥ o.endMin)

/-- `TimeBlock::overlap_minutes`; the `uint16_t` subtraction
`overlap_end - overlap_start` is modelled modulo `2^16`. -/
def TimeBlock.overlapMinutes (b o : TimeBlock) : Nat :=
  if b.overlaps o then
    (min b.endMin o.endMin + 65536 - max b.startMin o.startMin) % 65536
  else 0

/-! ## Resident (vertex) and Connection (edge) -/

/-- `ConnectionType` enumeration, in source order. -/
inductive ConnectionType where
  | SHARED_CLASS
  | SCHEDULE_OVERLAP
  | SHARED_INTEREST
  | ROOMMATE
  | FLOOR_PROXIMITY
  | RA_INTRODUCED
  | CHECKIN_MENTION
  | SUBCOMMUNITY
deriving DecidableEq

/-- `Resident`: the fields of the C++ struct that the analysis reads
(strings for rooms/classes, `Finset String` for the `std::set` fields,
rationals for the float-valued derived scores). -/
structure Resident where
  id : Nat
  room : String := ""
  subcommunities : Finset String := ∅
  classes : List String := []
  freeBlocks : List TimeBlock := []
  interests : Finset String := ∅
  lastRating : Int := 0
  followUpNeeded : Bool := false
  centrality : ℚ := 0
  boundaryScore : ℚ := 0
  isBridge : Bool := false
deriving DecidableEq

instance : Inhabited Resident := ⟨{ id := 0 }⟩

/-- `Connection` (edge). -/
structure Connection where
  id : Nat
  source : Nat
  target : Nat
  type : ConnectionType
  strength : ℚ
  isBridgeEdge : Bool
  touches : Finset String
deriving DecidableEq

/-- `CommunityGraph`: resident list, connection list, and the two adjacency
indices (`unordered_map` modelled as total functions defaulting to `[]`,
matching the map's default-constructed entries). -/
structure CommunityGraph where
  residents : List Resident := []
  connections : List Connection := []
  adj : Nat → List Nat := fun _ => []
  adjWeighted : Nat → List Nat := fun _ => []

/-! ## Edge synthesis helpers -/

/-- `count_shared_classes`: a double loop over the two course-code lists,
counting equal pairs (duplicates multiply). -/
def countSharedClasses (r1 r2 : Resident) : Nat :=
  (r1.classes.map (fun c1 => r2.classes.countP (fun c2 => c2 = c1))).sum

/-- Summed overlap minutes over all pairs of free blocks. -/
def totalOverlapMinutes (r1 r2 : Resident) : Nat :=
  (r1.freeBlocks.map
    (fun b1 => (r2.freeBlocks.map (fun b2 => b1.overlapMinutes b2)).sum)).sum

/-- `compute_schedule_overlap`: total overlap minutes divided by 60
(integer division, returning hours). -/
def computeScheduleOverlap (r1 r2 : Resident) : Nat :=
  totalOverlapMinutes r1 r2 / 60

/-- `count_shared_interests`: size of the interest intersection. -/
def countSharedInterests (r1 r2 : Resident) : Nat :=
  (r1.interests ∩ r2.interests).card

/-- Leading-digit run of a character list, as parsed by `std::stoi`. -/
def digitsVal : List Char → Nat → Nat
  | [], acc => acc
  | c :: cs, acc =>
    if c.isDigit then digitsVal cs (acc * 10 + (c.toNat - 48)) else acc

/-- `std::stoi` on a short string: skip leading spaces, optional sign, then
at least one digit (otherwise the exception branch yields `none`). -/
def stoiLeading (cs : List Char) : Option Int :=
  let cs1 := cs.dropWhile (fun c => c = ' ')
  match cs1 with
  | '-' :: rest =>
      match rest with
      | c :: _ => if c.isDigit then some (-(digitsVal rest 0 : Int)) else none
      | [] => none
  | '+' :: rest =>
      match rest with
      | c :: _ => if c.isDigit then some ((digitsVal rest 0 : Int)) else none
      | [] => none
  | c :: _ => if c.isDigit then some ((digitsVal cs1 0 : Int)) else none
  | [] => none

/-- `are_neighbors`: parse the first three characters of each room designator
with `stoi`; any parse failure is caught and yields `false`. -/
def areNeighbors (room1 room2 : String) : Bool :=
  match stoiLeading (room1.toList.take 3), stoiLeading (room2.toList.take 3) with
  | some v1, some v2 => (v1 - v2).natAbs ≤ 5
  | _, _ => false

/-- The per-pair signal evaluation of `compute_connections`: total strength
and the fired type list, accumulated in source order. -/
def pairStrengthTypes (r1 r2 : Resident) : ℚ × List ConnectionType :=
  let acc : ℚ × List ConnectionType := (0, [])
  let acc := if 0 < countSharedClasses r1 r2 then
      (acc.1 + (countSharedClasses r1 r2 : ℚ) * 2,
       acc.2 ++ [ConnectionType.SHARED_CLASS]) else acc
  let acc := if 2 ≤ computeScheduleOverlap r1 r2 then
      (acc.1 + min ((computeScheduleOverlap r1 r2 : ℚ) / 5) 2,
       acc.2 ++ [ConnectionType.SCHEDULE_OVERLAP]) else acc
  let acc := if 0 < countSharedInterests r1 r2 then
      (acc.1 + (countSharedInterests r1 r2 : ℚ) * (3 / 2),
       acc.2 ++ [ConnectionType.SHARED_INTEREST]) else acc
  let acc := if r1.room = r2.room then
      (acc.1 + 5, acc.2 ++ [ConnectionType.ROOMMATE]) else acc
  let acc := if areNeighbors r1.room r2.room then
      (acc.1 + 1, acc.2 ++ [ConnectionType.FLOOR_PROXIMITY]) else acc
  let acc := if (r1.subcommunities ∩ r2.subcommunities).Nonempty then
      (acc.1 + ((r1.subcommunities ∩ r2.subcommunities).card : ℚ) * (1 / 2),
       acc.2) else acc
  acc

/-- The connection built for one pair, when the summed strength reaches the
threshold and at least one typed signal fired. -/
def pairConn (minStrength : ℚ) (eid : Nat) (r1 r2 : Resident) :
    Option Connection :=
  let st := pairStrengthTypes r1 r2
  let shared := r1.subcommunities ∩ r2.subcommunities
  if minStrength ≤ st.1 ∧ st.2 ≠ [] then
    some { id := eid
           source := r1.id
           target := r2.id
           type := st.2.headD ConnectionType.SHARED_CLASS
           strength := st.1
           isBridgeEdge := decide (shared.card < r1.subcommunities.card ∨
             shared.card < r2.subcommunities.card)
           touches := shared }
  else none

/-- Ordered index pairs `i < j` over `n` residents, in loop order. -/
def pairIndices (n : Nat) : List (Nat × Nat) :=
  (List.range n).flatMap
    (fun i => (List.range' (i + 1) (n - (i + 1))).map (fun j => (i, j)))

/-- Append `v` to the adjacency entry of `k` (`adj[k].push_back(v)`). -/
def pushAdj (m : Nat → List Nat) (k v : Nat) : Nat → List Nat :=
  fun x => if x = k then m x ++ [v] else m x

/-- Accumulator for the `compute_connections` pair loop. -/
structure ConnBuild where
  eid : Nat
  conns : List Connection
  adjAcc : Nat → List Nat
  adjWAcc : Nat → List Nat

/-- One step of the pair loop. -/
def connStep (minStrength : ℚ) (rs : List Resident) (st : ConnBuild)
    (ij : Nat × Nat) : ConnBuild :=
  let r1 := rs.getD ij.1 default
  let r2 := rs.getD ij.2 default
  match pairConn minStrength st.eid r1 r2 with
  | none => st
  | some c =>
    { eid := st.eid + 1
      conns := st.conns ++ [c]
      adjAcc := pushAdj (pushAdj st.adjAcc r1.id r2.id) r2.id r1.id
      adjWAcc := if 2 ≤ c.strength then
          pushAdj (pushAdj st.adjWAcc r1.id r2.id) r2.id r1.id
        else st.adjWAcc }

/-- `CommunityGraph::compute_connections`: clears `connections` and `adj`
(but, as in the source, NOT `adj_weighted`), then evaluates every unordered
pair of residents. -/
def computeConnections (G : CommunityGraph) (minStrength : ℚ) :
    CommunityGraph :=
  let rs := G.residents
  let st0 : ConnBuild :=
    { eid := 0, conns := [], adjAcc := fun _ => [], adjWAcc := G.adjWeighted }
  let st := (pairIndices rs.length).foldl (connStep minStrength rs) st0
  { G with connections := st.conns, adj := st.adjAcc, adjWeighted := st.adjWAcc }

/-! ## Homology (`h0`, `h1`) -/

/-- Union along one edge: `parent[find(c.source)] = find(c.target)`. -/
def ufUnionEdge (p : Array Nat) (e : Nat × Nat) : Array Nat :=
  let f1 := ufFind p.size p e.1
  let f2 := ufFind f1.2.size f1.2 e.2
  f2.2.setD f1.1 f2.1

/-- `CommunityGraph::h0`: union-find over all residents along every
connection, then count distinct roots. -/
def ufH0 (n : Nat) (edges : List (Nat × Nat)) : Nat :=
  if n = 0 then 0
  else
    let pE := edges.foldl ufUnionEdge (ufInit n)
    let final := (List.range n).foldl
      (fun (acc : Finset Nat × Array Nat) i =>
        let f := ufFind acc.2.size acc.2 i
        (insert f.1 acc.1, f.2))
      ((∅ : Finset Nat), pE)
    final.1.card

/-- Edge list of a graph, as fed to the union-find. -/
def edgeList (G : CommunityGraph) : List (Nat × Nat) :=
  G.connections.map (fun c => (c.source, c.target))

def graphH0 (G : CommunityGraph) : Nat := ufH0 G.residents.length (edgeList G)

/-- `CommunityGraph::h1 = E - V + h0`. -/
def ufH1 (n : Nat) (edges : List (Nat × Nat)) : Int :=
  (edges.length : Int) - n + ufH0 n edges

def graphH1 (G : CommunityGraph) : Int :=
  ufH1 G.residents.length (edgeList G)

/-! ## Boundary scores and bridges -/

/-- Degree of `v` in the degree map built by `compute_boundary_scores`
(`degree[c.source]++; degree[c.target]++`). -/
def degreeOf (conns : List Connection) (v : Nat) : Nat :=
  conns.countP (fun c => c.source = v) + conns.countP (fun c => c.target = v)

/-- Maximum degree over the touched vertices (the entries of the degree map). -/
def maxDegree (conns : List Connection) : Nat :=
  conns.foldl
    (fun acc c => max (max acc (degreeOf conns c.source))
      (degreeOf conns c.target)) 0

/-- `CommunityGraph::compute_boundary_scores`. -/
def computeBoundaryScores (G : CommunityGraph) : CommunityGraph :=
  if G.residents = [] then G
  else
    { G with residents := G.residents.map (fun r =>
        let d := degreeOf G.connections r.id
        let c : ℚ := if 0 < maxDegree G.connections then
            (d : ℚ) / (maxDegree G.connections : ℚ) else 0
        { r with centrality := c, boundaryScore := 1 - c }) }

/-- `CommunityGraph::get_boundary_residents`. -/
def getBoundaryResidents (G : CommunityGraph) (threshold : ℚ) : List Nat :=
  (G.residents.filter (fun r => threshold ≤ r.boundaryScore)).map
    (fun r => r.id)

/-- Union of the subcommunity sets of a resident's direct neighbours,
accumulated as in the source loop (`residents[neighbor_id]` is a positional
access, modelled with `getD`; the `Checked` variant models the bound check). -/
def neighborSubsAcc (G : CommunityGraph) (v : Nat) : Finset String :=
  (G.adj v).foldl
    (fun acc nid => acc ∪ (G.residents.getD nid default).subcommunities) ∅

/-- `CommunityGraph::compute_bridges`. -/
def computeBridges (G : CommunityGraph) : CommunityGraph :=
  { G with residents := G.residents.map (fun r =>
      if r.subcommunities.card < 2 then { r with isBridge := false }
      else { r with isBridge := decide (2 ≤ (neighborSubsAcc G r.id).card) }) }

/-- `CommunityGraph::get_bridge_residents`. -/
def getBridgeResidents (G : CommunityGraph) : List Nat :=
  (G.residents.filter (fun r => r.isBridge)).map (fun r => r.id)

/-! ## Mayer-Vietoris health scores and the full-analysis pipeline -/

/-- `MayerVietorisEngine::compute_health_score` (used by the two-subgroup
decomposition path): fixed penalties/bonus, clamped to [0, 100]. -/
def computeHealthScore (h0v : Int) (h1v : Int) (isoCount bridgeCount : Nat) :
    ℚ :=
  let componentPenalty : ℚ := ((h0v : ℚ) - 1) * 15
  let holePenalty : ℚ := max 0 (((h1v : ℚ) - 2) * 5)
  let isolationPenalty : ℚ := (isoCount : ℚ) * 3
  let bridgeBonus : ℚ := (bridgeCount : ℚ) * 2
  let score := 100 - componentPenalty - holePenalty - isolationPenalty +
    bridgeBonus
  max 0 (min 100 score)

/-- The graph state after the `compute_connections` / `compute_boundary_scores`
/ `compute_bridges` prefix that both `analyze` and `compute_full` run. -/
def pipelinePrefix (G : CommunityGraph) : CommunityGraph :=
  computeBridges (computeBoundaryScores (computeConnections G (1 / 2)))

/-- The health score computed by `MayerVietorisEngine::compute_full`:
a 0.3/0.3/0.4 weighted combination of connectivity, cohesion and isolation
subscores (NOT `compute_health_score`). -/
def computeFullHealth (G : CommunityGraph) : ℚ :=
  let G1 := pipelinePrefix G
  let h1u : Int := graphH1 G1
  let connectivityScore : ℚ :=
    max 0 (100 - ((graphH0 G1 : ℚ) - 1) * 20)
  let cohesionScore : ℚ := max 0 (100 - (h1u : ℚ) * 5)
  let boundary := getBoundaryResidents G1 (7 / 10)
  let isolationScore : ℚ :=
    max 0 (100 - ((boundary.length : ℚ) / (G1.residents.length : ℚ)) * 100)
  connectivityScore * (3 / 10) + cohesionScore * (3 / 10) +
    isolationScore * (2 / 5)

/-- The health score reported by `CommunityAnalyzer::analyze`: the analyzer
runs the pipeline prefix itself, then `compute_full` reruns it on the result
and computes the weighted health. -/
def analyzeHealth (G : CommunityGraph) : ℚ :=
  computeFullHealth (pipelinePrefix G)

/-! ## Priority ordering (`CommunityAnalyzer::compute_priority_order`) -/

/-- The accumulated priority score of one resident, in source order. -/
def priorityScore (isolated bridges : List Nat)
    (fragile stable : List (List Nat)) (r : Resident) : ℚ :=
  let p : ℚ := 50
  let p := if r.id ∈ isolated then p + 30 else p
  let p := if fragile.any (fun g => r.id ∈ g) then p + 20 else p
  let p := if 0 < r.lastRating ∧ r.lastRating ≤ 2 then p + 25 else p
  let p := if r.followUpNeeded then p + 15 else p
  let p := if r.id ∈ bridges then p + 5 else p
  let p := if stable.any (fun g => r.id ∈ g) then p - 10 else p
  p

/-- The scored list before sorting, in resident order. -/
def priorityScores (G : CommunityGraph) (isolated bridges : List Nat)
    (fragile stable : List (List Nat)) : List (Nat × ℚ) :=
  G.residents.map
    (fun r => (r.id, priorityScore isolated bridges fragile stable r))

/-- Sorted by priority descending (the `std::sort` postcondition). -/
def SortedDescPairs (l : List (Nat × ℚ)) : Prop :=
  l.Pairwise (fun a b => b.2 ≤ a.2)

instance (l : List (Nat × ℚ)) : Decidable (SortedDescPairs l) := by
  unfold SortedDescPairs
  infer_instance

/-- Admissible outputs of `compute_priority_order`: `std::sort` guarantees a
permutation of the scored list ordered by the comparator, and nothing about
the relative order of equal keys. -/
def PriorityAdmissible (G : CommunityGraph) (isolated bridges : List Nat)
    (fragile stable : List (List Nat)) (out : List (Nat × ℚ)) : Prop :=
  (priorityScores G isolated bridges fragile stable).Perm out ∧
    SortedDescPairs out

/-! ## Persistent homology (`PersistentHomology::compute`) -/

structure Barcode where
  dimension : Nat
  birth : ℚ
  death : ℚ
  residents : List Nat
deriving DecidableEq

/-- `max_conn_strength`: strength of the first edge of the sorted list,
`1.0` when there are no connections. -/
def phMaxStrength (sorted : List Connection) : ℚ :=
  match sorted with
  | [] => 1
  | c :: _ => c.strength

/-- The dying component: residents `i` with `find(i) == root_t`, collected in
index order while threading the path-compressed parent array. -/
def phCollect (n : Nat) (rootT : Nat) (p : Array Nat) :
    List Nat × Array Nat :=
  (List.range n).foldl
    (fun acc i =>
      let f := ufFind acc.2.size acc.2 i
      (if f.1 = rootT then acc.1 ++ [i] else acc.1, f.2))
    ([], p)

/-- One filtration step of `PersistentHomology::compute`. -/
def phStep (n : Nat) (maxS : ℚ) (birthTime : Array ℚ)
    (st : List Barcode × Array Nat) (c : Connection) :
    List Barcode × Array Nat :=
  let f1 := ufFind st.2.size st.2 c.source
  let f2 := ufFind f1.2.size f1.2 c.target
  if f1.1 ≠ f2.1 then
    let fv := maxS - c.strength
    let coll := phCollect n f2.1 f2.2
    let b : Barcode :=
      { dimension := 0
        birth := birthTime.getD f2.1 0
        death := fv
        residents := coll.1 }
    ((if 1 < b.residents.length then st.1 ++ [b] else st.1),
      coll.2.setD f2.1 f1.1)
  else (st.1, f2.2)

/-- The barcode list produced by the filtration over an already-sorted
connection list (`birth_time` is initialised to zeros and never written,
exactly as in the source). -/
def phComputeSorted (n : Nat) (sorted : List Connection) : List Barcode :=
  let birthTime : Array ℚ := Array.mkArray n 0
  let maxS := phMaxStrength sorted
  (sorted.foldl (phStep n maxS birthTime) ([], ufInit n)).1

/-- The minimum filtration value previously recorded for a root, defaulting
to 0 when none was recorded (the claim's description of "birth"). -/
def recordedMinBirth (recorded : List (Nat × ℚ)) (root : Nat) : ℚ :=
  match (recorded.filter (fun pr => pr.1 = root)).map (fun pr => pr.2) with
  | [] => 0
  | q :: qs => qs.foldl min q

/-- Reference description of the filtration: a ghost component map
`m : Nat → Nat`, one barcode exactly at each merge of two distinct
components whose absorbed class has more than one member, with death
`maxS - strength` and birth the recorded minimum (nothing is ever
recorded). -/
def phSpec (n : Nat) (maxS : ℚ) :
    List Connection → (Nat → Nat) → List (Nat × ℚ) → List Barcode
  | [], _, _ => []
  | c :: rest, m, recorded =>
    if m c.source ≠ m c.target then
      let cls := (List.range n).filter (fun i => m i = m c.target)
      let b : Barcode :=
        { dimension := 0
          birth := recordedMinBirth recorded (m c.target)
          death := maxS - c.strength
          residents := cls }
      (if 1 < cls.length then [b] else []) ++
        phSpec n maxS rest
          (fun y => if m y = m c.target then m c.source else m y) recorded
    else phSpec n maxS rest m recorded

/-! ## Checked variants: the positional accesses indexed by member ids.

The C++ code indexes `residents` and the union-find parent vectors by member
identifiers (`parent[c.source]`, `residents[neighbor_id]`, ...).  These
variants return `none` exactly when such an access is out of bounds. -/

def ufFindChecked : Nat → Array Nat → Nat → Option (Nat × Array Nat)
  | 0, p, x => if x < p.size then some (x, p) else none
  | fuel + 1, p, x =>
    if x < p.size then
      let px := ufStep p x
      if px = x then some (x, p)
      else
        match ufFindChecked fuel p px with
        | none => none
        | some rp => some (rp.1, rp.2.setD x rp.1)
    else none

def ufH0Checked (n : Nat) (edges : List (Nat × Nat)) : Option Nat :=
  if n = 0 then some 0
  else do
    let pE ← edges.foldlM
      (fun (p : Array Nat) (e : Nat × Nat) => do
        let f1 ← ufFindChecked p.size p e.1
        let f2 ← ufFindChecked f1.2.size f1.2 e.2
        pure (f2.2.setD f1.1 f2.1)) (ufInit n)
    let final ← (List.range n).foldlM
      (fun (acc : Finset Nat × Array Nat) i => do
        let f ← ufFindChecked acc.2.size acc.2 i
        pure (insert f.1 acc.1, f.2)) ((∅ : Finset Nat), pE)
    pure final.1.card

def computeBridgesChecked (G : CommunityGraph) : Option (List Resident) :=
  G.residents.mapM (fun r =>
    if r.subcommunities.card < 2 then some { r with isBridge := false }
    else do
      let subs ← (G.adj r.id).foldlM
        (fun (acc : Finset String) nid => do
          let m ← G.residents.get? nid
          pure (acc ∪ m.subcommunities)) (∅ : Finset String)
      pure { r with isBridge := decide (2 ≤ subs.card) })

def phCollectChecked (n : Nat) (rootT : Nat) (p : Array Nat) :
    Option (List Nat × Array Nat) :=
  (List.range n).foldlM
    (fun (acc : List Nat × Array Nat) i => do
      let f ← ufFindChecked acc.2.size acc.2 i
      pure ((if f.1 = rootT then acc.1 ++ [i] else acc.1), f.2))
    ([], p)

def phComputeChecked (n : Nat) (sorted : List Connection) :
    Option (List Barcode) := do
  let birthTime : Array ℚ := Array.mkArray n 0
  let maxS := phMaxStrength sorted
  let st ← sorted.foldlM
    (fun (st : List Barcode × Array Nat) (c : Connection) => do
      let f1 ← ufFindChecked st.2.size st.2 c.source
      let f2 ← ufFindChecked f1.2.size f1.2 c.target
      if f1.1 ≠ f2.1 then do
        let coll ← phCollectChecked n f2.1 f2.2
        let bt ← birthTime.get? f2.1
        let b : Barcode :=
          { dimension := 0
            birth := bt
            death := maxS - c.strength
            residents := coll.1 }
        pure ((if 1 < b.residents.length then st.1 ++ [b] else st.1),
          coll.2.setD f2.1 f1.1)
      else pure (st.1, f2.2)) (([] : List Barcode), ufInit n)
  pure st.1

/-- Does some course code of `a` occur in `b` (`std::find` loop)? -/
def hasSharedClassList (a b : List String) : Bool :=
  a.any (fun c => b.contains c)

/-- Per-resident scan of one structural hole: count hole members sharing a
course, remembering the last one (`connect_to`). -/
def holeScanResident (G : CommunityGraph) (hole : List Nat) (r : Resident) :
    Option (Nat × Option Nat) :=
  hole.foldlM
    (fun (acc : Nat × Option Nat) hm => do
      let hmres ← G.residents.get? hm
      pure (if hasSharedClassList r.classes hmres.classes then
          (acc.1 + 1, some hm) else acc))
    (0, none)

/-- First resident outside the hole connectable to at least two members. -/
def holeIntro (G : CommunityGraph) (hole : List Nat) :
    List Resident → Option (Option (Nat × Nat))
  | [] => some none
  | r :: rest =>
    if hole.contains r.id then holeIntro G hole rest
    else do
      let sc ← holeScanResident G hole r
      if 2 ≤ sc.1 then
        match sc.2 with
        | some ct => some (some (r.id, ct))
        | none => holeIntro G hole rest
      else holeIntro G hole rest

/-- `MayerVietorisEngine::compute_introductions`, with the positional
accesses `residents[iso_id]` and `residents[hole_member]` checked. -/
def computeIntroductionsChecked (G : CommunityGraph)
    (holes : List (List Nat)) (isolated : List Nat) :
    Option (List (Nat × Nat)) := do
  let intros1 ← isolated.foldlM
    (fun (acc : List (Nat × Nat)) isoId => do
      let iso ← G.residents.get? isoId
      match G.residents.find? (fun r =>
          decide (r.id ≠ isoId) &&
          !(decide ((1 : ℚ) / 2 < r.boundaryScore)) &&
          (hasSharedClassList iso.classes r.classes ||
            decide ((iso.interests ∩ r.interests).Nonempty))) with
      | some r => pure (acc ++ [(isoId, r.id)])
      | none => pure acc) ([] : List (Nat × Nat))
  holes.foldlM
    (fun (acc : List (Nat × Nat)) hole =>
      if hole.length < 3 then pure acc
      else do
        match ← holeIntro G hole G.residents with
        | some pr => pure (acc ++ [pr])
        | none => pure acc) intros1

/-- Member ids are exactly the positions `0, ..., n-1` in insertion order. -/
def IdsCanonical (G : CommunityGraph) : Prop :=
  G.residents.map (fun r => r.id) = List.range G.residents.length

instance (G : CommunityGraph) : Decidable (IdsCanonical G) := by
  unfold IdsCanonical
  infer_instance

/-! ## Concrete test fixtures -/

/-- Two residents whose only contact is a 120-minute schedule overlap. -/
def ovA : Resident := { id := 0, room := "x", freeBlocks := [⟨0, 600, 720⟩] }

def ovB : Resident := { id := 1, room := "y", freeBlocks := [⟨0, 600, 720⟩] }

/-- Two residents sharing room "101" (roommate + proximity signals). -/
def gRoom : CommunityGraph :=
  { residents := [{ id := 0, room := "101" }, { id := 1, room := "101" }] }

/-- Two isolated residents with unparseable, distinct rooms. -/
def gIso : CommunityGraph :=
  { residents := [{ id := 0, room := "A" }, { id := 1, room := "B" }] }

/-! ## Claim C1 -/

/-- C1 (amended): in `compute_connections`, the time-window-overlap signal
contributes only when the summed free-time overlap is at least 2 hours
(at least 120 minutes), and when it fires its contribution to the pair's
summed strength equals the overlap in hours divided by 5, capped at 2.0. -/
theorem schedule_overlap_contribution (r1 r2 : Resident) :
    (pairStrengthTypes r1 r2).1 =
      (countSharedClasses r1 r2 : ℚ) * 2
      + (if 2 ≤ computeScheduleOverlap r1 r2 then
           min ((computeScheduleOverlap r1 r2 : ℚ) / 5) 2 else 0)
      + (countSharedInterests r1 r2 : ℚ) * (3 / 2)
      + (if r1.room = r2.room then 5 else 0)
      + (if areNeighbors r1.room r2.room then 1 else 0)
      + ((r1.subcommunities ∩ r2.subcommunities).card : ℚ) * (1 / 2) ∧
    (2 ≤ computeScheduleOverlap r1 r2 ↔ 120 ≤ totalOverlapMinutes r1 r2) ∧
    (if 2 ≤ computeScheduleOverlap r1 r2 then
        min ((computeScheduleOverlap r1 r2 : ℚ) / 5) 2 else 0) ≤ 2 := by
  refine ⟨?_, ?_, ?_⟩
  · have e1 : (if 0 < countSharedClasses r1 r2 then
        (countSharedClasses r1 r2 : ℚ) * 2 else 0)
        = (countSharedClasses r1 r2 : ℚ) * 2 := by
      rcases Nat.eq_zero_or_pos (countSharedClasses r1 r2) with h | h
      · rw [if_neg (by omega), h]
        norm_num
      · rw [if_pos h]
    have e3 : (if 0 < countSharedInterests r1 r2 then
        (countSharedInterests r1 r2 : ℚ) * (3 / 2) else 0)
        = (countSharedInterests r1 r2 : ℚ) * (3 / 2) := by
      rcases Nat.eq_zero_or_pos (countSharedInterests r1 r2) with h | h
      · rw [if_neg (by omega), h]
        norm_num
      · rw [if_pos h]
    have e6 : (if (r1.subcommunities ∩ r2.subcommunities).Nonempty then
        ((r1.subcommunities ∩ r2.subcommunities).card : ℚ) * (1 / 2) else 0)
        = ((r1.subcommunities ∩ r2.subcommunities).card : ℚ) * (1 / 2) := by
      by_cases h : (r1.subcommunities ∩ r2.subcommunities).Nonempty
      · rw [if_pos h]
      · rw [if_neg h, Finset.not_nonempty_iff_eq_empty.mp h]
        norm_num
    have hmid : (pairStrengthTypes r1 r2).1 =
        (if 0 < countSharedClasses r1 r2 then
          (countSharedClasses r1 r2 : ℚ) * 2 else 0)
        + (if 2 ≤ computeScheduleOverlap r1 r2 then
            min ((computeScheduleOverlap r1 r2 : ℚ) / 5) 2 else 0)
        + (if 0 < countSharedInterests r1 r2 then
            (countSharedInterests r1 r2 : ℚ) * (3 / 2) else 0)
        + (if r1.room = r2.room then 5 else 0)
        + (if areNeighbors r1.room r2.room then 1 else 0)
        + (if (r1.subcommunities ∩ r2.subcommunities).Nonempty then
            ((r1.subcommunities ∩ r2.subcommunities).card : ℚ) * (1 / 2)
          else 0) := by
      simp only [pairStrengthTypes]
      split_ifs <;> dsimp only <;> ring
    rw [hmid, e1, e3, e6]
  · unfold computeScheduleOverlap
    rw [Nat.le_div_iff_mul_le (by norm_num)]
  · split_ifs
    · exact min_le_right _ _
    · norm_num

/-- C1 counterexample: with exactly 120 overlap minutes the claim asserts a
contribution of `min 2 2 = 2`; the code contributes `2/5` and, at the default
threshold, creates no edge at all. -/
theorem schedule_overlap_claim_false :
    computeScheduleOverlap ovA ovB = 2 ∧
    (pairStrengthTypes ovA ovB).1 = 2 / 5 ∧
    pairConn (1 / 2) 0 ovA ovB = none ∧
    ¬((pairStrengthTypes ovA ovB).1 = min (2 : ℚ) 2) := by
  with_unfolding_all decide

/-! ## Claim C2 -/

/-- C2 (code bug): `compute_connections` clears `connections` and `adj` but
never clears `adj_weighted`; recomputing on an unchanged graph duplicates
every strong-adjacency entry, so the strong index does not contain exactly
the recomputed data. -/
theorem adjWeighted_not_rebuilt :
    (computeConnections (computeConnections gRoom (1 / 2)) (1 / 2)).connections
      = (computeConnections gRoom (1 / 2)).connections ∧
    (computeConnections gRoom (1 / 2)).adjWeighted 0 = [1] ∧
    (computeConnections (computeConnections gRoom (1 / 2)) (1 / 2)).adjWeighted 0
      = [1, 1] := by
  with_unfolding_all decide

/-! ## Claim C8 -/

/-- Every element and the initial accumulator are bounded by the
`maxDegree` fold. -/
theorem maxDegree_fold_le (conns : List Connection) :
    ∀ (l : List Connection) (acc : Nat),
      acc ≤ l.foldl (fun acc c => max (max acc (degreeOf conns c.source))
        (degreeOf conns c.target)) acc ∧
      ∀ c ∈ l,
        degreeOf conns c.source ≤ l.foldl
          (fun acc c => max (max acc (degreeOf conns c.source))
            (degreeOf conns c.target)) acc ∧
        degreeOf conns c.target ≤ l.foldl
          (fun acc c => max (max acc (degreeOf conns c.source))
            (degreeOf conns c.target)) acc := by
  intro l
  induction l with
  | nil => exact fun acc => ⟨le_rfl, fun c hc => absurd hc (List.not_mem_nil c)⟩
  | cons d rest ih =>
    intro acc
    simp only [List.foldl_cons]
    have h1 := (ih (max (max acc (degreeOf conns d.source))
      (degreeOf conns d.target))).1
    refine ⟨le_trans (le_max_of_le_left (le_max_left _ _)) h1, ?_⟩
    intro c hc
    rcases List.mem_cons.mp hc with rfl | hc2
    · exact ⟨le_trans (le_max_of_le_left (le_max_right _ _)) h1,
        le_trans (le_max_right _ _) h1⟩
    · exact (ih _).2 c hc2

/-- A vertex with positive degree has its degree bounded by `maxDegree`. -/
theorem degree_le_maxDegree (conns : List Connection) (v : Nat)
    (hpos : 0 < degreeOf conns v) : degreeOf conns v ≤ maxDegree conns := by
  have hex : ∃ c ∈ conns, c.source = v ∨ c.target = v := by
    unfold degreeOf at hpos
    rcases Nat.lt_or_ge 0 (conns.countP (fun c => c.source = v)) with h | h
    · obtain ⟨c, hc, hp⟩ := List.countP_pos.mp h
      exact ⟨c, hc, Or.inl (by simpa using hp)⟩
    · have h2 : 0 < conns.countP (fun c => c.target = v) := by omega
      obtain ⟨c, hc, hp⟩ := List.countP_pos.mp h2
      exact ⟨c, hc, Or.inr (by simpa using hp)⟩
  obtain ⟨c, hc, hv⟩ := hex
  have := (maxDegree_fold_le conns conns 0).2 c hc
  unfold maxDegree
  rcases hv with rfl | rfl
  · exact this.1
  · exact this.2

/-- C8: after `compute_boundary_scores`, every member's boundary score is
`1 - degree / maxDegree` (degree counted over all connections), and the
boundary score is monotonically non-increasing in degree. -/
theorem boundary_score_formula_monotone (G : CommunityGraph) :
    (∀ r' ∈ (computeBoundaryScores G).residents,
        0 < maxDegree G.connections →
        r'.boundaryScore = 1 - (degreeOf G.connections r'.id : ℚ) /
          (maxDegree G.connections : ℚ)) ∧
    (∀ r1' ∈ (computeBoundaryScores G).residents,
     ∀ r2' ∈ (computeBoundaryScores G).residents,
        degreeOf G.connections r1'.id < degreeOf G.connections r2'.id →
        r2'.boundaryScore ≤ r1'.boundaryScore) := by
  by_cases hres : G.residents = []
  · unfold computeBoundaryScores
    rw [if_pos hres]
    constructor
    · intro r' hr'
      rw [hres] at hr'
      exact absurd hr' (List.not_mem_nil r')
    · intro r1' hr1
      rw [hres] at hr1
      exact absurd hr1 (List.not_mem_nil r1')
  · have hmem : ∀ r' ∈ (computeBoundaryScores G).residents,
        ∃ r ∈ G.residents, r'.id = r.id ∧
          r'.boundaryScore = 1 - (if 0 < maxDegree G.connections then
            (degreeOf G.connections r.id : ℚ) / (maxDegree G.connections : ℚ)
          else 0) := by
      intro r' hr'
      unfold computeBoundaryScores at hr'
      rw [if_neg hres] at hr'
      simp only [List.mem_map] at hr'
      obtain ⟨r, hr, heq⟩ := hr'
      refine ⟨r, hr, ?_, ?_⟩ <;> rw [← heq]
    constructor
    · intro r' hr' hM
      obtain ⟨r, _, hid, hbs⟩ := hmem r' hr'
      rw [hbs, if_pos hM, hid]
    · intro r1' hr1 r2' hr2 hlt
      obtain ⟨a, _, hida, hbsa⟩ := hmem r1' hr1
      obtain ⟨b, _, hidb, hbsb⟩ := hmem r2' hr2
      rw [hida] at hlt
      rw [hidb] at hlt
      have hd2pos : 0 < degreeOf G.connections b.id := by omega
      have hM : 0 < maxDegree G.connections :=
        lt_of_lt_of_le hd2pos (degree_le_maxDegree _ _ hd2pos)
      rw [hbsa, hbsb, if_pos hM, if_pos hM]
      have hMQ : (0 : ℚ) < (maxDegree G.connections : ℚ) := by
        exact_mod_cast hM
      have hdiv : (degreeOf G.connections a.id : ℚ) /
          (maxDegree G.connections : ℚ) ≤
          (degreeOf G.connections b.id : ℚ) /
          (maxDegree G.connections : ℚ) := by
        gcongr
      linarith

/-- Three residents, degrees 1 / 2 / 1 (edges 0-1 and 1-2). -/
def gDeg : CommunityGraph :=
  { residents := [{ id := 0 }, { id := 1 }, { id := 2 }]
    connections :=
      [{ id := 0, source := 0, target := 1, type := ConnectionType.ROOMMATE,
         strength := 6, isBridgeEdge := false, touches := ∅ },
       { id := 1, source := 1, target := 2,
         type := ConnectionType.SHARED_CLASS, strength := 2,
         isBridgeEdge := false, touches := ∅ }] }

def wR0 : Resident := (computeBoundaryScores gDeg).residents.getD 0 default

def wR1 : Resident := (computeBoundaryScores gDeg).residents.getD 1 default

/-- C8 witness: in `gDeg`, resident 0 has degree 1 < 2 = degree of
resident 1; its boundary score is `1 - 1/2` and dominates resident 1's. -/
theorem boundary_score_witness :
    wR0 ∈ (computeBoundaryScores gDeg).residents ∧
    wR1 ∈ (computeBoundaryScores gDeg).residents ∧
    degreeOf gDeg.connections wR0.id < degreeOf gDeg.connections wR1.id ∧
    0 < maxDegree gDeg.connections ∧
    wR0.boundaryScore = 1 - (degreeOf gDeg.connections wR0.id : ℚ) /
      (maxDegree gDeg.connections : ℚ) ∧
    wR1.boundaryScore ≤ wR0.boundaryScore := by
  have hm0 : wR0 ∈ (computeBoundaryScores gDeg).residents := by
    with_unfolding_all decide
  have hm1 : wR1 ∈ (computeBoundaryScores gDeg).residents := by
    with_unfolding_all decide
  have hlt : degreeOf gDeg.connections wR0.id <
      degreeOf gDeg.connections wR1.id := by
    with_unfolding_all decide
  have hM : 0 < maxDegree gDeg.connections := by
    with_unfolding_all decide
  exact ⟨hm0, hm1, hlt, hM,
    (boundary_score_formula_monotone gDeg).1 wR0 hm0 hM,
    (boundary_score_formula_monotone gDeg).2 wR0 hm0 wR1 hm1 hlt⟩

/-! ## Claim C7 -/

/-- Lookup by id: the union of subcommunity sets over a member's direct
neighbours where each neighbour is identified by its member id
(the claim's reading of "direct neighbors"). -/
def neighborSubsUnion (G : CommunityGraph) (v : Nat) : Finset String :=
  ((G.adj v).map (fun nid =>
    ((G.residents.find? (fun m => m.id = nid)).getD default).subcommunities)).foldl
    (fun a s => a ∪ s) ∅

/-- With ids equal to positions, looking a member up by id finds exactly the
member stored at that position. -/
theorem find_id_of_canonical :
    ∀ (l : List Resident) (k nid : Nat),
      l.map (fun r => r.id) = List.range' k l.length →
      k ≤ nid → nid < k + l.length →
      l.find? (fun m => m.id = nid) = some (l.getD (nid - k) default) := by
  intro l
  induction l with
  | nil =>
    intro k nid _ h1 h2
    simp at h2
    omega
  | cons r rest ih =>
    intro k nid hcanon h1 h2
    have hlen : (r :: rest).length = rest.length + 1 := rfl
    rw [hlen, List.range'_succ] at hcanon
    simp only [List.map_cons, List.cons.injEq] at hcanon
    obtain ⟨hr, hrest⟩ := hcanon
    by_cases hk : nid = k
    · subst hk
      simp only [List.find?_cons]
      rw [show (decide (r.id = nid)) = true by simp [hr]]
      rw [Nat.sub_self]
      rfl
    · have hge : k + 1 ≤ nid := by omega
      have hlt : nid < (k + 1) + rest.length := by
        simp only [hlen] at h2
        omega
      simp only [List.find?_cons]
      rw [show (decide (r.id = nid)) = false by simp [hr]; omega]
      dsimp only
      rw [ih (k + 1) nid hrest hge hlt]
      have hsub : nid - k = (nid - (k + 1)) + 1 := by omega
      rw [hsub]
      rfl

/-- Folding set unions over a list where two functions agree. -/
theorem foldl_union_congr {α β : Type} [DecidableEq β]
    (f g : α → Finset β) :
    ∀ (l : List α) (acc : Finset β), (∀ x ∈ l, f x = g x) →
      l.foldl (fun a x => a ∪ f x) acc = l.foldl (fun a x => a ∪ g x) acc := by
  intro l
  induction l with
  | nil => intro acc _; rfl
  | cons x rest ih =>
    intro acc hagree
    simp only [List.foldl_cons]
    rw [hagree x (List.mem_cons_self x rest),
      ih _ (fun y hy => hagree y (List.mem_cons_of_mem x hy))]

/-- Folding binary unions equals mapping then folding. -/
theorem foldl_union_map {α β : Type} [DecidableEq β] (f : α → Finset β) :
    ∀ (l : List α) (acc : Finset β),
      l.foldl (fun a x => a ∪ f x) acc =
        (l.map f).foldl (fun a s => a ∪ s) acc := by
  intro l
  induction l with
  | nil => intro acc; rfl
  | cons x rest ih => intro acc; simp only [List.foldl_cons, List.map_cons, ih]

/-- C7: after `compute_bridges`, a member with fewer than two subgroup
memberships is never a bridge (for any adjacency structure); a member with
two or more is flagged iff the union of subgroup labels over its direct
neighbours has size at least 2. -/
theorem bridges_rule (G : CommunityGraph) :
    (∀ r' ∈ (computeBridges G).residents,
        r'.subcommunities.card < 2 → r'.isBridge = false) ∧
    (IdsCanonical G →
      ∀ i, i < G.residents.length →
        2 ≤ (G.residents.getD i default).subcommunities.card →
        (∀ nid ∈ G.adj (G.residents.getD i default).id,
          nid < G.residents.length) →
        (((computeBridges G).residents.getD i default).isBridge = true ↔
          2 ≤ (neighborSubsUnion G (G.residents.getD i default).id).card)) := by
  constructor
  · intro r' hr' hcard
    unfold computeBridges at hr'
    simp only [List.mem_map] at hr'
    obtain ⟨r, _, heq⟩ := hr'
    by_cases h2 : r.subcommunities.card < 2
    · rw [if_pos h2] at heq
      rw [← heq]
    · rw [if_neg h2] at heq
      rw [← heq] at hcard
      simp only at hcard
      omega
  · intro hcanon i hi hcard hvalid
    have hstruct :
        (computeBridges G).residents.getD i default =
          (fun r => if r.subcommunities.card < 2 then
              { r with isBridge := false }
            else { r with
              isBridge := decide (2 ≤ (neighborSubsAcc G r.id).card) })
            (G.residents.getD i default) := by
      unfold computeBridges
      simp only
      rw [List.getD_eq_getElem?_getD, List.getElem?_map,
        List.getD_eq_getElem?_getD]
      cases h : G.residents[i]? with
      | none =>
        rw [List.getElem?_eq_none_iff] at h
        omega
      | some r => rfl
    rw [hstruct]
    dsimp only
    rw [if_neg (by omega)]
    simp only [decide_eq_true_eq]
    have hunion : neighborSubsAcc G (G.residents.getD i default).id =
        neighborSubsUnion G (G.residents.getD i default).id := by
      unfold neighborSubsAcc neighborSubsUnion
      rw [← foldl_union_map]
      apply foldl_union_congr
      intro nid hnid
      have hn := hvalid nid hnid
      have hfind := find_id_of_canonical G.residents 0 nid
        (by
          have := hcanon
          unfold IdsCanonical at this
          rw [this, List.range_eq_range'])
        (Nat.zero_le nid) (by omega)
      rw [hfind]
      simp
    rw [hunion]

/-- Residents 0 ({X, Y}), 1 ({X}), 2 ({Y}); 0 is adjacent to 1 and 2. -/
def gBridge : CommunityGraph :=
  { residents :=
      [{ id := 0, subcommunities := {"X", "Y"} },
       { id := 1, subcommunities := {"X"} },
       { id := 2, subcommunities := {"Y"} }]
    adj := fun v => if v = 0 then [1, 2] else if v = 1 then [0]
      else if v = 2 then [0] else [] }

def wB1 : Resident := (computeBridges gBridge).residents.getD 1 default

/-- C7 witness: in `gBridge`, resident 1 (one subgroup) is not a bridge, and
resident 0 (two subgroups, neighbours spanning {X} and {Y}) is flagged. -/
theorem bridges_witness :
    wB1 ∈ (computeBridges gBridge).residents ∧
    wB1.subcommunities.card < 2 ∧
    wB1.isBridge = false ∧
    IdsCanonical gBridge ∧
    2 ≤ (gBridge.residents.getD 0 default).subcommunities.card ∧
    2 ≤ (neighborSubsUnion gBridge
      (gBridge.residents.getD 0 default).id).card ∧
    ((computeBridges gBridge).residents.getD 0 default).isBridge = true := by
  have hm : wB1 ∈ (computeBridges gBridge).residents := by
    with_unfolding_all decide
  have hc : wB1.subcommunities.card < 2 := by with_unfolding_all decide
  have hcanon : IdsCanonical gBridge := by decide
  have hcard : 2 ≤ (gBridge.residents.getD 0 default).subcommunities.card := by
    decide
  have hvalid : ∀ nid ∈ gBridge.adj (gBridge.residents.getD 0 default).id,
      nid < gBridge.residents.length := by decide
  have hun : 2 ≤ (neighborSubsUnion gBridge
      (gBridge.residents.getD 0 default).id).card := by
    with_unfolding_all decide
  exact ⟨hm, hc, (bridges_rule gBridge).1 wB1 hm hc, hcanon, hcard, hun,
    ((bridges_rule gBridge).2 hcanon 0 (by decide) hcard hvalid).mpr hun⟩

/-! ## Claim C3 -/

/-- C3 (amended): every admissible output of `compute_priority_order` is
sorted by score descending and contains, for each member, the pair
`(id, 50 + 30·isolated + 20·fragile + 25·lowRating + 15·followUp + 5·bridge
- 10·stable)`; the relative order of equal scores is not specified
(`std::sort` is not stable). -/
theorem priority_order_spec (G : CommunityGraph) (isolated bridges : List Nat)
    (fragile stable : List (List Nat)) (out : List (Nat × ℚ))
    (hadm : PriorityAdmissible G isolated bridges fragile stable out) :
    SortedDescPairs out ∧
    ∀ r ∈ G.residents,
      (r.id, 50 + (if r.id ∈ isolated then (30 : ℚ) else 0)
        + (if fragile.any (fun g => r.id ∈ g) then 20 else 0)
        + (if 0 < r.lastRating ∧ r.lastRating ≤ 2 then 25 else 0)
        + (if r.followUpNeeded then 15 else 0)
        + (if r.id ∈ bridges then 5 else 0)
        - (if stable.any (fun g => r.id ∈ g) then 10 else 0)) ∈ out := by
  obtain ⟨hperm, hsorted⟩ := hadm
  refine ⟨hsorted, ?_⟩
  intro r hr
  have hscore : priorityScore isolated bridges fragile stable r =
      50 + (if r.id ∈ isolated then (30 : ℚ) else 0)
        + (if fragile.any (fun g => r.id ∈ g) then 20 else 0)
        + (if 0 < r.lastRating ∧ r.lastRating ≤ 2 then 25 else 0)
        + (if r.followUpNeeded then 15 else 0)
        + (if r.id ∈ bridges then 5 else 0)
        - (if stable.any (fun g => r.id ∈ g) then 10 else 0) := by
    unfold priorityScore
    split_ifs <;> ring
  rw [← hscore]
  apply hperm.mem_iff.mp
  unfold priorityScores
  exact List.mem_map_of_mem _ hr

/-- Two residents; resident 1 has the follow-up flag (score 65 vs 50). -/
def gPrio : CommunityGraph :=
  { residents := [{ id := 0 }, { id := 1, followUpNeeded := true }] }

/-- C3 witness: `[(1, 65), (0, 50)]` is an admissible output for `gPrio` and
satisfies the amended claim. -/
theorem priority_order_witness :
    PriorityAdmissible gPrio [] [] [] [] [(1, 65), (0, 50)] ∧
    (SortedDescPairs [((1 : Nat), (65 : ℚ)), (0, 50)] ∧
     ∀ r ∈ gPrio.residents,
      (r.id, 50 + (if r.id ∈ ([] : List Nat) then (30 : ℚ) else 0)
        + (if ([] : List (List Nat)).any (fun g => r.id ∈ g) then 20 else 0)
        + (if 0 < r.lastRating ∧ r.lastRating ≤ 2 then 25 else 0)
        + (if r.followUpNeeded then 15 else 0)
        + (if r.id ∈ ([] : List Nat) then 5 else 0)
        - (if ([] : List (List Nat)).any (fun g => r.id ∈ g) then 10 else 0))
        ∈ [((1 : Nat), (65 : ℚ)), (0, 50)]) := by
  have hadm : PriorityAdmissible gPrio [] [] [] [] [(1, 65), (0, 50)] := by
    constructor
    · with_unfolding_all decide
    · with_unfolding_all decide
  exact ⟨hadm, priority_order_spec gPrio [] [] [] [] _ hadm⟩

/-- Two residents with identical (default) attributes: both score 50. -/
def gTie : CommunityGraph := { residents := [{ id := 0 }, { id := 1 }] }

/-- C3 counterexample: with two equal-score members, the reversed list is an
admissible `std::sort` output, so the claim's stable tie-breaking (which
would force `[(0, 50), (1, 50)]`) does not hold on the code. -/
theorem priority_order_tie_unstable :
    PriorityAdmissible gTie [] [] [] [] [(1, 50), (0, 50)] ∧
    [((1 : Nat), (50 : ℚ)), (0, 50)] ≠ [(0, 50), (1, 50)] := by
  constructor
  · constructor
    · with_unfolding_all decide
    · with_unfolding_all decide
  · with_unfolding_all decide

/-! ## Claim C10 -/

/-- A fold preserves any property preserved by each step. -/
theorem foldl_preserves {α β : Type} (f : β → α → β) (P : β → Prop) :
    ∀ (l : List α) (b : β), P b → (∀ b a, P b → P (f b a)) →
      P (l.foldl f b) := by
  intro l
  induction l with
  | nil => exact fun b hb _ => hb
  | cons a rest ih =>
    intro b hb hstep
    exact ih (f b a) (hstep b a hb) hstep

/-- The shared-subcommunity signal never pushes a type tag. -/
theorem subcommunity_not_mem_types (r1 r2 : Resident) :
    ConnectionType.SUBCOMMUNITY ∉ (pairStrengthTypes r1 r2).2 := by
  simp only [pairStrengthTypes]
  split_ifs <;> dsimp only <;> decide

theorem pairConn_type_ne_subcommunity (minS : ℚ) (eid : Nat)
    (r1 r2 : Resident) (c : Connection)
    (h : pairConn minS eid r1 r2 = some c) :
    c.type ≠ ConnectionType.SUBCOMMUNITY := by
  simp only [pairConn] at h
  split_ifs at h with hcond
  · injection h with h2
    rw [← h2]
    simp only
    have hnm := subcommunity_not_mem_types r1 r2
    cases hts : (pairStrengthTypes r1 r2).2 with
    | nil => decide
    | cons t rest =>
      rw [hts] at hnm
      simp only [List.headD_cons]
      intro hEq
      exact hnm (hEq ▸ List.mem_cons_self t rest)

/-- C10: a pair whose only qualifying signal is shared subgroup membership
gets no edge regardless of the summed strength, and consequently no
connection ever carries the shared-subgroup primary type. -/
theorem no_subcommunity_only_edges :
    (∀ (minS : ℚ) (eid : Nat) (r1 r2 : Resident),
      countSharedClasses r1 r2 = 0 →
      computeScheduleOverlap r1 r2 < 2 →
      countSharedInterests r1 r2 = 0 →
      r1.room ≠ r2.room →
      areNeighbors r1.room r2.room = false →
      pairConn minS eid r1 r2 = none) ∧
    (∀ (G : CommunityGraph) (minS : ℚ),
      ∀ c ∈ (computeConnections G minS).connections,
        c.type ≠ ConnectionType.SUBCOMMUNITY) := by
  constructor
  · intro minS eid r1 r2 h1 h2 h3 h4 h5
    have htypes : (pairStrengthTypes r1 r2).2 = [] := by
      simp only [pairStrengthTypes]
      rw [if_neg (show ¬0 < countSharedClasses r1 r2 by omega),
        if_neg (show ¬2 ≤ computeScheduleOverlap r1 r2 by omega),
        if_neg (show ¬0 < countSharedInterests r1 r2 by omega),
        if_neg (show ¬r1.room = r2.room from h4),
        if_neg (show ¬areNeighbors r1.room r2.room = true by simp [h5])]
      split_ifs <;> rfl
    simp only [pairConn]
    rw [if_neg]
    intro hcond
    exact hcond.2 htypes
  · intro G minS c hc
    unfold computeConnections at hc
    simp only at hc
    have hinv : ∀ d ∈ ((pairIndices G.residents.length).foldl
        (connStep minS G.residents)
        { eid := 0, conns := [], adjAcc := fun _ => [],
          adjWAcc := G.adjWeighted }).conns,
        d.type ≠ ConnectionType.SUBCOMMUNITY := by
      apply foldl_preserves (connStep minS G.residents)
        (fun st => ∀ d ∈ st.conns, d.type ≠ ConnectionType.SUBCOMMUNITY)
      · intro d hd
        exact absurd hd (List.not_mem_nil d)
      · intro st ij hst
        simp only [connStep]
        cases hp : pairConn minS st.eid
            (G.residents.getD ij.1 default)
            (G.residents.getD ij.2 default) with
        | none => simpa using hst
        | some d0 =>
          simp only
          intro d hd
          simp only [List.mem_append, List.mem_singleton] at hd
          rcases hd with hd | rfl
          · exact hst d hd
          · exact pairConn_type_ne_subcommunity _ _ _ _ _ hp
    exact hinv c hc

/-- Two residents sharing three subcommunities and nothing else. -/
def subOnlyA : Resident :=
  { id := 0, room := "x", subcommunities := {"S1", "S2", "S3"} }

def subOnlyB : Resident :=
  { id := 1, room := "y", subcommunities := {"S1", "S2", "S3"} }

/-- C10 witness: the shared-subgroup strength `1.5` exceeds the default
threshold `0.5`, yet no edge is created. -/
theorem no_subcommunity_only_edges_witness :
    (countSharedClasses subOnlyA subOnlyB = 0 ∧
     computeScheduleOverlap subOnlyA subOnlyB < 2 ∧
     countSharedInterests subOnlyA subOnlyB = 0 ∧
     subOnlyA.room ≠ subOnlyB.room ∧
     areNeighbors subOnlyA.room subOnlyB.room = false ∧
     (pairStrengthTypes subOnlyA subOnlyB).1 = 3 / 2 ∧
     (1 : ℚ) / 2 ≤ 3 / 2) ∧
    pairConn (1 / 2) 0 subOnlyA subOnlyB = none := by
  refine ⟨by with_unfolding_all decide, ?_⟩
  exact no_subcommunity_only_edges.1 (1 / 2) 0 subOnlyA subOnlyB
    (by decide) (by decide) (by decide) (by decide) (by decide)

/-! ## Union-find: the per-edge union and root accounting (for C5, C9) -/

/-- Pointwise-equal parent steps give the same iterates, roots and
well-formedness. -/
theorem ufStep_ext {p q : Array Nat} (hs : p.size = q.size)
    (h : ∀ y, ufStep p y = ufStep q y) :
    (∀ k y, ufIter p k y = ufIter q k y) ∧ (∀ y, ufRoot p y = ufRoot q y) ∧
      (UFWF p → UFWF q) := by
  have hiter : ∀ k y, ufIter p k y = ufIter q k y := by
    intro k
    induction k with
    | zero => intro y; rfl
    | succ k ih =>
      intro y
      simp only [ufIter]
      rw [h y, ih (ufStep q y)]
  have hroot : ∀ y, ufRoot p y = ufRoot q y := by
    intro y
    rw [ufRoot, ufRoot, hs, hiter]
  refine ⟨hiter, hroot, ?_⟩
  intro hwf y hy
  rw [← hs] at hy
  obtain ⟨hlt, hfix⟩ := hwf y hy
  refine ⟨?_, ?_⟩
  · rw [← h y, ← hs]
    exact hlt
  · unfold IsRoot
    rw [← hroot y, ← h (ufRoot p y)]
    exact hfix

/-- `parent[find(source)] = find(target)` merges the source class into the
target class at the ghost-root level. -/
theorem ufUnionEdge_spec (p : Array Nat) (e : Nat × Nat) (hwf : UFWF p)
    (h1 : e.1 < p.size) (h2 : e.2 < p.size) :
    (ufUnionEdge p e).size = p.size ∧ UFWF (ufUnionEdge p e) ∧
    ∀ y, y < p.size → ufRoot (ufUnionEdge p e) y =
      (if ufRoot p y = ufRoot p e.1 then ufRoot p e.2 else ufRoot p y) := by
  obtain ⟨f1r, f1sz, f1wf, f1roots, f1isroot⟩ := ufFind_size_spec p e.1 hwf h1
  set p1 := (ufFind p.size p e.1).2 with hp1
  have h2p1 : e.2 < p1.size := by rw [f1sz]; exact h2
  obtain ⟨f2r, f2sz, f2wf, f2roots, f2isroot⟩ :=
    ufFind_size_spec p1 e.2 f1wf h2p1
  set p2 := (ufFind p1.size p1 e.2).2 with hp2
  have hueq : ufUnionEdge p e =
      p2.setD (ufFind p.size p e.1).1 (ufFind p1.size p1 e.2).1 := rfl
  have hrs : (ufFind p.size p e.1).1 = ufRoot p e.1 := f1r
  have hrt : (ufFind p1.size p1 e.2).1 = ufRoot p e.2 := by
    rw [f2r, f1roots]
  have hp2sz : p2.size = p.size := by rw [f2sz, f1sz]
  have hrsroot2 : IsRoot p2 (ufRoot p e.1) := by
    rw [f2isroot, f1isroot]
    exact isRoot_ufRoot hwf h1
  have hrtroot2 : IsRoot p2 (ufRoot p e.2) := by
    rw [f2isroot, f1isroot]
    exact isRoot_ufRoot hwf h2
  have hrslt : ufRoot p e.1 < p2.size := by
    rw [hp2sz]; exact ufRoot_lt hwf h1
  have hrtlt : ufRoot p e.2 < p2.size := by
    rw [hp2sz]; exact ufRoot_lt hwf h2
  rw [hueq, hrs, hrt]
  by_cases hrr : ufRoot p e.1 = ufRoot p e.2
  · -- writing the root onto itself changes nothing
    have hsame : ∀ y,
        ufStep (p2.setD (ufRoot p e.1) (ufRoot p e.2)) y = ufStep p2 y := by
      intro y
      rw [ufStep_setD]
      split_ifs with hy
      · rw [← hrr, hy.1]
        exact Eq.symm hrsroot2
      · rfl
    have hsz3 : p2.size = (p2.setD (ufRoot p e.1) (ufRoot p e.2)).size :=
      (size_setD _ _ _).symm
    obtain ⟨_, hroots3, hwf3⟩ := ufStep_ext hsz3 (fun y => (hsame y).symm)
    refine ⟨by rw [← hsz3, hp2sz], hwf3 f2wf, ?_⟩
    intro y hy
    rw [← hroots3, f2roots, f1roots]
    split_ifs with hcase
    · rw [← hrr, ← hcase]
    · rfl
  · obtain ⟨husz, huwf, huroots⟩ := uf_union_spec f2wf hrslt hrtlt
      hrsroot2 hrtroot2 hrr
    refine ⟨by rw [husz, hp2sz], huwf, ?_⟩
    intro y hy
    rw [huroots y, f2roots, f1roots]

/-- The distinct ghost roots over the vertex range. -/
def rootsOf (p : Array Nat) : Finset Nat :=
  (Finset.range p.size).image (ufRoot p)

theorem rootsOf_ufInit (n : Nat) : rootsOf (ufInit n) = Finset.range n := by
  unfold rootsOf
  rw [size_ufInit]
  apply Finset.ext
  intro z
  constructor
  · intro hz
    obtain ⟨y, hy, hyz⟩ := Finset.mem_image.mp hz
    rw [ufRoot_ufInit] at hyz
    rw [← hyz]
    exact hy
  · intro hz
    exact Finset.mem_image.mpr ⟨z, hz, ufRoot_ufInit n z⟩

/-- Merging the class of `rs` into that of `rt` erases exactly `rs` from the
image of the component map. -/
theorem image_merge_erase (n : Nat) (m : Nat → Nat) (rs rt : Nat)
    (hrr : rs ≠ rt) (hrs : rs ∈ (Finset.range n).image m)
    (hrt : rt ∈ (Finset.range n).image m) :
    (Finset.range n).image (fun y => if m y = rs then rt else m y) =
      ((Finset.range n).image m).erase rs := by
  apply Finset.ext
  intro z
  constructor
  · intro hz
    obtain ⟨y, hy, hyz⟩ := Finset.mem_image.mp hz
    by_cases hc : m y = rs
    · rw [if_pos hc] at hyz
      rw [← hyz]
      exact Finset.mem_erase.mpr ⟨Ne.symm hrr, hrt⟩
    · rw [if_neg hc] at hyz
      refine Finset.mem_erase.mpr ⟨?_, Finset.mem_image.mpr ⟨y, hy, hyz⟩⟩
      rw [← hyz]
      exact hc
  · intro hz
    obtain ⟨hne, hmem⟩ := Finset.mem_erase.mp hz
    obtain ⟨y, hy, hyz⟩ := Finset.mem_image.mp hmem
    refine Finset.mem_image.mpr ⟨y, hy, ?_⟩
    rw [if_neg (by rw [hyz]; exact hne), hyz]

/-! ## The greedy spanning forest (C5) -/

/-- One step of the forest construction: an edge is a tree edge exactly when
its endpoints lie in different components so far; the parent state evolves by
the same find/union as `h0`. -/
def forestScanStep (st : Nat × Array Nat) (e : Nat × Nat) :
    Nat × Array Nat :=
  let f1 := ufFind st.2.size st.2 e.1
  let f2 := ufFind f1.2.size f1.2 e.2
  ((if f1.1 = f2.1 then st.1 else st.1 + 1), f2.2.setD f1.1 f2.1)

/-- Spanning-forest construction over the edge list, following the spec's
testable property: greedily accept an edge into the forest iff its endpoints
are not yet connected; returns the number of tree edges and the final
union-find state. -/
def forestScan (n : Nat) (edges : List (Nat × Nat)) : Nat × Array Nat :=
  edges.foldl forestScanStep (0, ufInit n)

/-- The number of edges not used by the spanning forest, summed across all
components (the spec's independent count). -/
def spanningForestNonTree (n : Nat) (edges : List (Nat × Nat)) : Nat :=
  edges.length - (forestScan n edges).1

theorem forestScanStep_char (st : Nat × Array Nat) (e : Nat × Nat)
    (hwf : UFWF st.2) (h1 : e.1 < st.2.size) (h2 : e.2 < st.2.size) :
    (forestScanStep st e).1 =
      (if ufRoot st.2 e.1 = ufRoot st.2 e.2 then st.1 else st.1 + 1) ∧
    (forestScanStep st e).2 = ufUnionEdge st.2 e := by
  obtain ⟨f1r, f1sz, f1wf, f1roots, _⟩ := ufFind_size_spec st.2 e.1 hwf h1
  have h2p1 : e.2 < (ufFind st.2.size st.2 e.1).2.size := by
    rw [f1sz]; exact h2
  obtain ⟨f2r, _, _, _, _⟩ :=
    ufFind_size_spec (ufFind st.2.size st.2 e.1).2 e.2 f1wf h2p1
  constructor
  · show (if (ufFind st.2.size st.2 e.1).1 =
        (ufFind (ufFind st.2.size st.2 e.1).2.size
          (ufFind st.2.size st.2 e.1).2 e.2).1 then st.1 else st.1 + 1) = _
    rw [f1r, f2r, f1roots]
  · rfl

/-- Invariant of the forest fold: the tree-edge count plus the number of
distinct components is constant, and the count grows by at most one per
edge. -/
theorem forestScan_fold_invariant (n : Nat) :
    ∀ (edges : List (Nat × Nat)) (st : Nat × Array Nat),
      UFWF st.2 → st.2.size = n → (∀ e ∈ edges, e.1 < n ∧ e.2 < n) →
      UFWF (edges.foldl forestScanStep st).2 ∧
      (edges.foldl forestScanStep st).2.size = n ∧
      (edges.foldl forestScanStep st).1 +
        (rootsOf (edges.foldl forestScanStep st).2).card =
        st.1 + (rootsOf st.2).card ∧
      (edges.foldl forestScanStep st).1 ≤ st.1 + edges.length := by
  intro edges
  induction edges with
  | nil => exact fun st hwf hsz _ => ⟨hwf, hsz, rfl, Nat.le_refl _⟩
  | cons e rest ih =>
    intro st hwf hsz hval
    have he := hval e (List.mem_cons_self e rest)
    have h1 : e.1 < st.2.size := by rw [hsz]; exact he.1
    have h2 : e.2 < st.2.size := by rw [hsz]; exact he.2
    obtain ⟨hfst, hsnd⟩ := forestScanStep_char st e hwf h1 h2
    obtain ⟨husz, huwf, huroots⟩ := ufUnionEdge_spec st.2 e hwf h1 h2
    have hwf' : UFWF (forestScanStep st e).2 := by rw [hsnd]; exact huwf
    have hsz' : (forestScanStep st e).2.size = n := by
      rw [hsnd, husz, hsz]
    have hvalr : ∀ e2 ∈ rest, e2.1 < n ∧ e2.2 < n :=
      fun e2 he2 => hval e2 (List.mem_cons_of_mem e he2)
    obtain ⟨ihwf, ihsz, ihcard, ihle⟩ := ih (forestScanStep st e) hwf' hsz' hvalr
    have hfold : (e :: rest).foldl forestScanStep st =
        rest.foldl forestScanStep (forestScanStep st e) := rfl
    rw [hfold]
    refine ⟨ihwf, ihsz, ?_, ?_⟩
    · rw [ihcard]
      -- the image of the merged map
      have himg : rootsOf (forestScanStep st e).2 =
          (Finset.range n).image (fun y =>
            if ufRoot st.2 y = ufRoot st.2 e.1 then ufRoot st.2 e.2
            else ufRoot st.2 y) := by
        unfold rootsOf
        rw [hsz']
        apply Finset.image_congr
        intro y hy
        rw [hsnd]
        exact huroots y (by rw [hsz]; exact Finset.mem_range.mp hy)
      have hrsmem : ufRoot st.2 e.1 ∈
          (Finset.range n).image (ufRoot st.2) :=
        Finset.mem_image.mpr ⟨e.1, Finset.mem_range.mpr he.1, rfl⟩
      have hrtmem : ufRoot st.2 e.2 ∈
          (Finset.range n).image (ufRoot st.2) :=
        Finset.mem_image.mpr ⟨e.2, Finset.mem_range.mpr he.2, rfl⟩
      have hroots_st : rootsOf st.2 = (Finset.range n).image (ufRoot st.2) := by
        unfold rootsOf
        rw [hsz]
      by_cases hrr : ufRoot st.2 e.1 = ufRoot st.2 e.2
      · have himg2 : rootsOf (forestScanStep st e).2 = rootsOf st.2 := by
          rw [himg, hroots_st]
          apply Finset.image_congr
          intro y _
          dsimp only
          split_ifs with hc
          · rw [← hrr, ← hc]
          · rfl
        rw [himg2, hfst, if_pos hrr]
      · have himg2 : rootsOf (forestScanStep st e).2 =
            (rootsOf st.2).erase (ufRoot st.2 e.1) := by
          rw [himg, hroots_st]
          exact image_merge_erase n (ufRoot st.2) _ _ hrr hrsmem hrtmem
        have hcard_pos : 0 < (rootsOf st.2).card := by
          rw [hroots_st]
          exact Finset.card_pos.mpr ⟨_, hrsmem⟩
        have hcard_erase : ((rootsOf st.2).erase (ufRoot st.2 e.1)).card =
            (rootsOf st.2).card - 1 := by
          apply Finset.card_erase_of_mem
          rw [hroots_st]
          exact hrsmem
        rw [himg2, hcard_erase, hfst, if_neg hrr]
        omega
    · calc (rest.foldl forestScanStep (forestScanStep st e)).1
          ≤ (forestScanStep st e).1 + rest.length := ihle
        _ ≤ st.1 + (e :: rest).length := by
            rw [hfst]
            split_ifs <;> simp <;> omega

/-- The second component of the forest scan is exactly the `h0` union-find
fold. -/
theorem forestScan_snd (n : Nat) (edges : List (Nat × Nat)) :
    (forestScan n edges).2 = edges.foldl ufUnionEdge (ufInit n) := by
  unfold forestScan
  suffices h : ∀ (l : List (Nat × Nat)) (st : Nat × Array Nat),
      (l.foldl forestScanStep st).2 = l.foldl ufUnionEdge st.2 by
    exact h edges (0, ufInit n)
  intro l
  induction l with
  | nil => intro st; rfl
  | cons e rest ih =>
    intro st
    rw [List.foldl_cons, List.foldl_cons, ih]
    rfl

/-- The final counting loop of `h0` collects exactly the distinct roots. -/
theorem h0_count_loop (p : Array Nat) (hwf0 : UFWF p) (n : Nat)
    (hsz0 : p.size = n) :
    ∀ (l : List Nat) (S : Finset Nat) (q : Array Nat),
      UFWF q → q.size = n → (∀ y, ufRoot q y = ufRoot p y) →
      (∀ i ∈ l, i < n) →
      (l.foldl (fun (acc : Finset Nat × Array Nat) i =>
        let f := ufFind acc.2.size acc.2 i
        (insert f.1 acc.1, f.2)) (S, q)).1 =
        S ∪ l.toFinset.image (ufRoot p) := by
  intro l
  induction l with
  | nil =>
    intro S q _ _ _ _
    simp
  | cons i rest ih =>
    intro S q hqwf hqsz hqroots hval
    have hilt : i < q.size := by
      rw [hqsz]
      exact hval i (List.mem_cons_self i rest)
    obtain ⟨fr, fsz, fwf, froots, _⟩ := ufFind_size_spec q i hqwf hilt
    rw [List.foldl_cons]
    dsimp only
    rw [fr, hqroots]
    rw [ih (insert (ufRoot p i) S) (ufFind q.size q i).2 fwf
      (by rw [fsz, hqsz]) (fun y => by rw [froots, hqroots])
      (fun j hj => hval j (List.mem_cons_of_mem i hj))]
    rw [List.toFinset_cons, Finset.image_insert]
    rw [Finset.union_insert, Finset.insert_union]

/-! ## Claim C5 -/

theorem ufH0_eq_card (n : Nat) (edges : List (Nat × Nat)) (hn : n ≠ 0)
    (hval : ∀ e ∈ edges, e.1 < n ∧ e.2 < n) :
    ufH0 n edges =
      (rootsOf (edges.foldl ufUnionEdge (ufInit n))).card := by
  unfold ufH0
  rw [if_neg hn]
  have hinv := forestScan_fold_invariant n edges (0, ufInit n)
    (ufInit_wf n) (size_ufInit n) hval
  have hwfE : UFWF (edges.foldl ufUnionEdge (ufInit n)) := by
    rw [← forestScan_snd]
    exact hinv.1
  have hszE : (edges.foldl ufUnionEdge (ufInit n)).size = n := by
    rw [← forestScan_snd]
    exact hinv.2.1
  have hloop := h0_count_loop (edges.foldl ufUnionEdge (ufInit n)) hwfE n
    hszE (List.range n) ∅ (edges.foldl ufUnionEdge (ufInit n)) hwfE hszE
    (fun y => rfl) (fun i hi => List.mem_range.mp hi)
  dsimp only
  have hrange : (List.range n).toFinset = Finset.range n := by
    apply Finset.ext
    intro x
    simp
  rw [hloop, hrange, Finset.empty_union]
  unfold rootsOf
  rw [hszE]

/-- C5: `h1 = |E| - |V| + h0` equals the number of edges not used by the
greedy spanning-forest construction, and a graph with zero edges has
`h0 = |V|` and `h1 = 0` for every vertex count. -/
theorem h1_eq_spanning_forest (n : Nat) (edges : List (Nat × Nat))
    (hval : ∀ e ∈ edges, e.1 < n ∧ e.2 < n) :
    ufH1 n edges = (spanningForestNonTree n edges : Int) ∧
    (∀ m : Nat, ufH0 m [] = m ∧ ufH1 m [] = 0) := by
  have hzero : ∀ m : Nat, ufH0 m [] = m ∧ ufH1 m [] = 0 := by
    intro m
    by_cases hm : m = 0
    · subst hm
      exact ⟨rfl, by decide⟩
    · have hcard := ufH0_eq_card m [] hm
        (fun e he => absurd he (List.not_mem_nil e))
    -- the empty fold leaves the identity parent array
      have hm0 : ufH0 m [] = m := by
        rw [hcard]
        show (rootsOf (ufInit m)).card = m
        rw [rootsOf_ufInit]
        exact Finset.card_range m
      refine ⟨hm0, ?_⟩
      unfold ufH1
      rw [hm0]
      simp
  refine ⟨?_, hzero⟩
  by_cases hn : n = 0
  · subst hn
    cases edges with
    | nil =>
      have := (hzero 0).2
      rw [this]
      decide
    | cons e rest =>
      exact absurd (hval e (List.mem_cons_self e rest)).1 (by omega)
  · obtain ⟨hwfE, hszE, hcard, hle⟩ := forestScan_fold_invariant n edges
      (0, ufInit n) (ufInit_wf n) (size_ufInit n) hval
    have hcard0 : (forestScan n edges).1 +
        (rootsOf (forestScan n edges).2).card = n := by
      rw [rootsOf_ufInit, Finset.card_range] at hcard
      simpa using hcard
    have hH0 : ufH0 n edges = (rootsOf (forestScan n edges).2).card := by
      rw [ufH0_eq_card n edges hn hval, forestScan_snd]
    have htle : (forestScan n edges).1 ≤ edges.length := by
      simpa using hle
    unfold ufH1 spanningForestNonTree
    rw [hH0]
    omega

/-- C5 witness: the triangle on three vertices has `h1 = 1`, matching its
one non-tree edge, and the empty-edge graph facts hold at `|V| = 4`. -/
theorem h1_eq_spanning_forest_witness :
    (∀ e ∈ [((0 : Nat), (1 : Nat)), (1, 2), (0, 2)], e.1 < 3 ∧ e.2 < 3) ∧
    ufH1 3 [(0, 1), (1, 2), (0, 2)] =
      (spanningForestNonTree 3 [(0, 1), (1, 2), (0, 2)] : Int) ∧
    ufH1 3 [(0, 1), (1, 2), (0, 2)] = 1 ∧
    (ufH0 4 [] = 4 ∧ ufH1 4 [] = 0) := by
  refine ⟨by decide, (h1_eq_spanning_forest 3 _ (by decide)).1, ?_,
    (h1_eq_spanning_forest 3 [] (by decide)).2 4⟩
  with_unfolding_all decide

/-! ## Claim C4 -/

/-! ## Claim C4 -/

/-- Two folds related stepwise stay related. -/
theorem foldl_rel {α β β' : Type} (f : β → α → β) (g : β' → α → β')
    (R : β → β' → Prop) :
    ∀ (l : List α) (b : β) (b' : β'), R b b' →
      (∀ b b' a, R b b' → R (f b a) (g b' a)) →
      R (l.foldl f b) (l.foldl g b') := by
  intro l
  induction l with
  | nil => exact fun b b' hb _ => hb
  | cons a rest ih =>
    intro b b' hb hstep
    exact ih (f b a) (g b' a) (hstep b b' a hb) hstep

/-- Equality of the fields of a resident that edge synthesis reads. -/
def StaticEq (a b : Resident) : Prop :=
  a.id = b.id ∧ a.room = b.room ∧ a.subcommunities = b.subcommunities ∧
    a.classes = b.classes ∧ a.freeBlocks = b.freeBlocks ∧
    a.interests = b.interests

theorem staticEq_refl (a : Resident) : StaticEq a a :=
  ⟨rfl, rfl, rfl, rfl, rfl, rfl⟩

theorem pairStrengthTypes_congr {a a' b b' : Resident}
    (ha : StaticEq a a') (hb : StaticEq b b') :
    pairStrengthTypes a b = pairStrengthTypes a' b' := by
  obtain ⟨_, haroom, hasub, hacl, hafb, hain⟩ := ha
  obtain ⟨_, hbroom, hbsub, hbcl, hbfb, hbin⟩ := hb
  have h1 : countSharedClasses a b = countSharedClasses a' b' := by
    unfold countSharedClasses
    rw [hacl, hbcl]
  have h2 : computeScheduleOverlap a b = computeScheduleOverlap a' b' := by
    unfold computeScheduleOverlap totalOverlapMinutes
    rw [hafb, hbfb]
  have h3 : countSharedInterests a b = countSharedInterests a' b' := by
    unfold countSharedInterests
    rw [hain, hbin]
  unfold pairStrengthTypes
  rw [h1, h2, h3, haroom, hbroom, hasub, hbsub]

theorem pairConn_congr {a a' b b' : Resident} (m : ℚ) (e : Nat)
    (ha : StaticEq a a') (hb : StaticEq b b') :
    pairConn m e a b = pairConn m e a' b' := by
  unfold pairConn
  rw [pairStrengthTypes_congr ha hb, ha.1, hb.1, ha.2.2.1, hb.2.2.1]

/-- Edge synthesis depends only on the static fields of the residents. -/
theorem computeConnections_congr (G G' : CommunityGraph) (m : ℚ)
    (hlen : G.residents.length = G'.residents.length)
    (hpt : ∀ i, StaticEq (G.residents.getD i default)
      (G'.residents.getD i default)) :
    (computeConnections G m).connections =
      (computeConnections G' m).connections := by
  unfold computeConnections
  simp only
  rw [hlen]
  exact (foldl_rel (connStep m G.residents) (connStep m G'.residents)
    (fun st st' => st.eid = st'.eid ∧ st.conns = st'.conns)
    (pairIndices G'.residents.length)
    { eid := 0, conns := [], adjAcc := fun _ => [],
      adjWAcc := G.adjWeighted }
    { eid := 0, conns := [], adjAcc := fun _ => [],
      adjWAcc := G'.adjWeighted }
    ⟨rfl, rfl⟩
    (by
      intro st st' ij hR
      simp only [connStep]
      rw [show pairConn m st.eid (G.residents.getD ij.1 default)
            (G.residents.getD ij.2 default)
          = pairConn m st'.eid (G'.residents.getD ij.1 default)
            (G'.residents.getD ij.2 default) by
        rw [hR.1, pairConn_congr m st'.eid (hpt ij.1) (hpt ij.2)]]
      rw [show (G.residents.getD ij.1 default).id
          = (G'.residents.getD ij.1 default).id from (hpt ij.1).1]
      rw [show (G.residents.getD ij.2 default).id
          = (G'.residents.getD ij.2 default).id from (hpt ij.2).1]
      cases hp : pairConn m st'.eid (G'.residents.getD ij.1 default)
          (G'.residents.getD ij.2 default) with
      | none => exact hR
      | some c => exact ⟨by rw [hR.1], by rw [hR.2]⟩)).2

theorem staticEq_trans {a b c : Resident} (h1 : StaticEq a b)
    (h2 : StaticEq b c) : StaticEq a c := by
  obtain ⟨x1, x2, x3, x4, x5, x6⟩ := h1
  obtain ⟨y1, y2, y3, y4, y5, y6⟩ := h2
  exact ⟨x1.trans y1, x2.trans y2, x3.trans y3, x4.trans y4, x5.trans y5,
    x6.trans y6⟩

theorem getD_staticEq_of_map (l : List Resident) (f : Resident → Resident)
    (hf : ∀ r, StaticEq (f r) r) (i : Nat) :
    StaticEq ((l.map f).getD i default) (l.getD i default) := by
  rcases Nat.lt_or_ge i l.length with hi | hi
  · rw [List.getD_eq_getElem?_getD, List.getElem?_map,
      List.getD_eq_getElem?_getD]
    cases h : l[i]? with
    | none =>
      rw [List.getElem?_eq_none_iff] at h
      omega
    | some r => exact hf r
  · rw [List.getD_eq_getElem?_getD, List.getD_eq_getElem?_getD,
      List.getElem?_eq_none (by simpa using hi),
      List.getElem?_eq_none (by simpa using hi)]
    exact staticEq_refl default

/-- Residents are untouched by edge synthesis. -/
theorem computeConnections_residents (X : CommunityGraph) (m : ℚ) :
    (computeConnections X m).residents = X.residents := rfl

theorem computeBridges_residents (X : CommunityGraph) :
    (computeBridges X).residents = X.residents.map (fun r =>
      if r.subcommunities.card < 2 then { r with isBridge := false }
      else { r with
        isBridge := decide (2 ≤ (neighborSubsAcc X r.id).card) }) := rfl

theorem computeBridges_connections (X : CommunityGraph) :
    (computeBridges X).connections = X.connections := rfl

theorem computeBoundaryScores_connections (X : CommunityGraph) :
    (computeBoundaryScores X).connections = X.connections := by
  unfold computeBoundaryScores
  split <;> rfl

theorem computeBoundaryScores_residents (X : CommunityGraph)
    (h : X.residents ≠ []) :
    (computeBoundaryScores X).residents = X.residents.map (fun r =>
      { r with
        centrality := (if 0 < maxDegree X.connections then
          (degreeOf X.connections r.id : ℚ) / (maxDegree X.connections : ℚ)
          else 0)
        boundaryScore := 1 - (if 0 < maxDegree X.connections then
          (degreeOf X.connections r.id : ℚ) / (maxDegree X.connections : ℚ)
          else 0) }) := by
  unfold computeBoundaryScores
  rw [if_neg h]

/-- `get_boundary_residents` is determined by the `(id, boundaryScore)`
projection of the resident list. -/
theorem getBoundaryResidents_via_proj (t : ℚ) :
    ∀ (l : List Resident),
      (l.filter (fun r => t ≤ r.boundaryScore)).map (fun r => r.id) =
      ((l.map (fun r => (r.id, r.boundaryScore))).filter
        (fun p => t ≤ p.2)).map (fun p => p.1) := by
  intro l
  induction l with
  | nil => rfl
  | cons r rest ih =>
    simp only [List.map_cons, List.filter_cons]
    cases hd : decide (t ≤ r.boundaryScore) with
    | false => simpa [hd] using ih
    | true => simpa [hd] using ih

theorem getBoundaryResidents_proj_congr (X Y : CommunityGraph) (t : ℚ)
    (h : X.residents.map (fun r => (r.id, r.boundaryScore)) =
      Y.residents.map (fun r => (r.id, r.boundaryScore))) :
    getBoundaryResidents X t = getBoundaryResidents Y t := by
  unfold getBoundaryResidents
  rw [getBoundaryResidents_via_proj, getBoundaryResidents_via_proj, h]

/-- The boundary-score value assigned to a vertex by
`compute_boundary_scores` over a connection list. -/
def boundaryValue (conns : List Connection) (v : Nat) : ℚ :=
  1 - (if 0 < maxDegree conns then
    (degreeOf conns v : ℚ) / (maxDegree conns : ℚ) else 0)

/-- One pipeline pass: projections, connections, length, and static fields
of the result in terms of the input graph. -/
theorem pipelinePrefix_char (G : CommunityGraph) (hn : G.residents ≠ []) :
    (pipelinePrefix G).residents.map (fun r => (r.id, r.boundaryScore)) =
      G.residents.map (fun r =>
        (r.id, boundaryValue (computeConnections G (1 / 2)).connections r.id)) ∧
    (pipelinePrefix G).residents.map (fun r => r.id) =
      G.residents.map (fun r => r.id) ∧
    (pipelinePrefix G).connections =
      (computeConnections G (1 / 2)).connections ∧
    (pipelinePrefix G).residents.length = G.residents.length ∧
    (∀ i, StaticEq ((pipelinePrefix G).residents.getD i default)
      (G.residents.getD i default)) := by
  have hccres : (computeConnections G (1 / 2)).residents = G.residents := rfl
  have hbd := computeBoundaryScores_residents (computeConnections G (1 / 2))
    (by rw [hccres]; exact hn)
  rw [hccres] at hbd
  have hP : (pipelinePrefix G).residents =
      ((G.residents.map (fun r =>
        { r with
          centrality := (if 0 < maxDegree
              (computeConnections G (1 / 2)).connections then
            (degreeOf (computeConnections G (1 / 2)).connections r.id : ℚ) /
              (maxDegree (computeConnections G (1 / 2)).connections : ℚ)
            else 0)
          boundaryScore := boundaryValue
            (computeConnections G (1 / 2)).connections r.id })).map
        (fun r =>
          if r.subcommunities.card < 2 then { r with isBridge := false }
          else { r with isBridge := decide (2 ≤ (neighborSubsAcc
            (computeBoundaryScores (computeConnections G (1 / 2)))
            r.id).card) })) := by
    unfold pipelinePrefix
    rw [computeBridges_residents, hbd]
    rfl
  refine ⟨?_, ?_, ?_, ?_, ?_⟩
  · rw [hP, List.map_map, List.map_map]
    apply List.map_congr_left
    intro r _
    simp only [Function.comp]
    split_ifs <;> rfl
  · rw [hP, List.map_map, List.map_map]
    apply List.map_congr_left
    intro r _
    simp only [Function.comp]
    split_ifs <;> rfl
  · unfold pipelinePrefix
    rw [computeBridges_connections, computeBoundaryScores_connections]
  · rw [hP]
    simp
  · intro i
    rw [hP, List.map_map]
    apply getD_staticEq_of_map
    intro r
    simp only [Function.comp]
    split_ifs <;> exact ⟨rfl, rfl, rfl, rfl, rfl, rfl⟩

/-- The second pipeline pass run by `compute_full` reproduces the first
pass's connections and boundary data. -/
theorem pipelinePrefix_second (G : CommunityGraph) (hn : G.residents ≠ []) :
    (pipelinePrefix (pipelinePrefix G)).connections =
      (pipelinePrefix G).connections ∧
    (pipelinePrefix (pipelinePrefix G)).residents.length =
      (pipelinePrefix G).residents.length ∧
    getBoundaryResidents (pipelinePrefix (pipelinePrefix G)) (7 / 10) =
      getBoundaryResidents (pipelinePrefix G) (7 / 10) := by
  obtain ⟨hproj, hids, hconn, hlen, hstat⟩ := pipelinePrefix_char G hn
  have hnP : (pipelinePrefix G).residents ≠ [] := by
    intro h
    apply hn
    have := hlen
    rw [h] at this
    exact List.eq_nil_of_length_eq_zero this.symm
  obtain ⟨hproj2, hids2, hconn2, hlen2, hstat2⟩ :=
    pipelinePrefix_char (pipelinePrefix G) hnP
  have hccP : (computeConnections (pipelinePrefix G) (1 / 2)).connections =
      (computeConnections G (1 / 2)).connections :=
    computeConnections_congr (pipelinePrefix G) G (1 / 2) hlen hstat
  refine ⟨?_, ?_, ?_⟩
  · rw [hconn2, hccP, hconn]
  · rw [hlen2]
  · apply getBoundaryResidents_proj_congr
    rw [hproj2, hproj, hccP]
    have hcomp : ∀ (l : List Resident),
        l.map (fun r => (r.id,
          boundaryValue (computeConnections G (1 / 2)).connections r.id)) =
        (l.map (fun r => r.id)).map (fun v => (v,
          boundaryValue (computeConnections G (1 / 2)).connections v)) := by
      intro l
      rw [List.map_map]
      rfl
    rw [hcomp, hcomp, hids]

theorem clamp_comm (x : ℚ) : max 0 (min 100 x) = min 100 (max 0 x) := by
  rcases le_total x 0 with h | h <;> rcases le_total x 100 with h2 | h2 <;>
    rw [min_def, min_def, max_def, max_def] <;> split_ifs <;> linarith

/-- C4 (amended): the health score reported by the full-analysis pipeline is
the weighted combination `0.3·connectivity + 0.3·cohesion + 0.4·isolation`
over the pipeline graph; the claim's formula (−15 per extra component, −5
per cycle beyond 2, −3 per isolated member, +2 per bridge, clamped to
[0, 100]) is computed only by `compute_health_score`, which the
two-subgroup decomposition path uses. -/
theorem analyze_health_formula (G : CommunityGraph)
    (hn : G.residents ≠ []) :
    (analyzeHealth G =
      (max 0 (100 - ((graphH0 (pipelinePrefix G) : ℚ) - 1) * 20)) * (3 / 10)
      + (max 0 (100 - ((graphH1 (pipelinePrefix G) : ℚ)) * 5)) * (3 / 10)
      + (max 0 (100 -
          (((getBoundaryResidents (pipelinePrefix G) (7 / 10)).length : ℚ) /
            ((pipelinePrefix G).residents.length : ℚ)) * 100)) * (2 / 5)) ∧
    (∀ (h0v h1v : Int) (iso br : Nat),
      computeHealthScore h0v h1v iso br =
        min 100 (max 0 (100 - ((h0v : ℚ) - 1) * 15 -
          max 0 (((h1v : ℚ) - 2) * 5) - (iso : ℚ) * 3 + (br : ℚ) * 2))) := by
  constructor
  · obtain ⟨hconn, hlen, hbnd⟩ := pipelinePrefix_second G hn
    have hH0 : graphH0 (pipelinePrefix (pipelinePrefix G)) =
        graphH0 (pipelinePrefix G) := by
      unfold graphH0 edgeList
      rw [hconn, hlen]
    have hH1 : graphH1 (pipelinePrefix (pipelinePrefix G)) =
        graphH1 (pipelinePrefix G) := by
      unfold graphH1 ufH1 edgeList
      rw [hconn, hlen]
    unfold analyzeHealth computeFullHealth
    simp only
    rw [hH0, hH1, hbnd, hlen]
  · intro h0v h1v iso br
    simp only [computeHealthScore]
    rw [clamp_comm]

/-- C4 counterexample: for two isolated residents, the full-analysis health
score is 54, while the claim's formula gives 79. -/
theorem analyze_health_claim_false :
    analyzeHealth gIso = 54 ∧
    computeHealthScore (graphH0 (pipelinePrefix gIso) : Int)
      (graphH1 (pipelinePrefix gIso))
      (getBoundaryResidents (pipelinePrefix gIso) (7 / 10)).length
      (getBridgeResidents (pipelinePrefix gIso)).length = 79 ∧
    (54 : ℚ) ≠ 79 := by
  refine ⟨?_, ?_, by norm_num⟩
  · with_unfolding_all decide
  · with_unfolding_all decide

/-- C4 witness for the amended statement, at the concrete graph `gIso`. -/
theorem analyze_health_formula_witness :
    gIso.residents ≠ [] ∧
    ((analyzeHealth gIso =
      (max 0 (100 - ((graphH0 (pipelinePrefix gIso) : ℚ) - 1) * 20)) * (3 / 10)
      + (max 0 (100 - ((graphH1 (pipelinePrefix gIso) : ℚ)) * 5)) * (3 / 10)
      + (max 0 (100 -
          (((getBoundaryResidents (pipelinePrefix gIso) (7 / 10)).length : ℚ) /
            ((pipelinePrefix gIso).residents.length : ℚ)) * 100)) * (2 / 5)) ∧
    (∀ (h0v h1v : Int) (iso br : Nat),
      computeHealthScore h0v h1v iso br =
        min 100 (max 0 (100 - ((h0v : ℚ) - 1) * 15 -
          max 0 (((h1v : ℚ) - 2) * 5) - (iso : ℚ) * 3 + (br : ℚ) * 2)))) :=
  ⟨by decide, analyze_health_formula gIso (by decide)⟩

/-! ## Claim C9 -/

/-- Edges in non-increasing strength order (`std::sort` postcondition for
the persistence filtration). -/
def SortedDescStrength (l : List Connection) : Prop :=
  l.Pairwise (fun a b => b.strength ≤ a.strength)

instance (l : List Connection) : Decidable (SortedDescStrength l) := by
  unfold SortedDescStrength
  infer_instance

/-- The dying-component collection loop filters the vertex range by root. -/
theorem phCollect_spec (n rootT : Nat) (p : Array Nat) (hwf : UFWF p)
    (hsz : p.size = n) :
    (phCollect n rootT p).1 =
      (List.range n).filter (fun i => ufRoot p i = rootT) ∧
    UFWF (phCollect n rootT p).2 ∧
    (phCollect n rootT p).2.size = n ∧
    (∀ y, ufRoot (phCollect n rootT p).2 y = ufRoot p y) ∧
    (∀ z, IsRoot (phCollect n rootT p).2 z ↔ IsRoot p z) := by
  suffices h : ∀ (l : List Nat), (∀ i ∈ l, i < n) →
      ∀ (acc : List Nat) (q : Array Nat), UFWF q → q.size = n →
      (∀ y, ufRoot q y = ufRoot p y) →
      (∀ z, IsRoot q z ↔ IsRoot p z) →
      (l.foldl (fun (acc : List Nat × Array Nat) i =>
        let f := ufFind acc.2.size acc.2 i
        (if f.1 = rootT then acc.1 ++ [i] else acc.1, f.2)) (acc, q)).1 =
        acc ++ l.filter (fun i => ufRoot p i = rootT) ∧
      UFWF (l.foldl (fun (acc : List Nat × Array Nat) i =>
        let f := ufFind acc.2.size acc.2 i
        (if f.1 = rootT then acc.1 ++ [i] else acc.1, f.2)) (acc, q)).2 ∧
      (l.foldl (fun (acc : List Nat × Array Nat) i =>
        let f := ufFind acc.2.size acc.2 i
        (if f.1 = rootT then acc.1 ++ [i] else acc.1, f.2)) (acc, q)).2.size
        = n ∧
      (∀ y, ufRoot (l.foldl (fun (acc : List Nat × Array Nat) i =>
        let f := ufFind acc.2.size acc.2 i
        (if f.1 = rootT then acc.1 ++ [i] else acc.1, f.2)) (acc, q)).2 y =
        ufRoot p y) ∧
      (∀ z, IsRoot (l.foldl (fun (acc : List Nat × Array Nat) i =>
        let f := ufFind acc.2.size acc.2 i
        (if f.1 = rootT then acc.1 ++ [i] else acc.1, f.2)) (acc, q)).2 z ↔
        IsRoot p z) by
    have hmain := h (List.range n) (fun i hi => List.mem_range.mp hi) [] p
      hwf hsz (fun y => rfl) (fun z => Iff.rfl)
    have h1 := hmain.1
    rw [List.nil_append] at h1
    exact ⟨h1, hmain.2.1, hmain.2.2.1, hmain.2.2.2.1, hmain.2.2.2.2⟩
  intro l
  induction l with
  | nil =>
    intro _ acc q hqwf hqsz hqroots hqisroot
    exact ⟨by simp, hqwf, hqsz, hqroots, hqisroot⟩
  | cons i rest ih =>
    intro hval acc q hqwf hqsz hqroots hqisroot
    have hilt : i < q.size := by
      rw [hqsz]
      exact hval i (List.mem_cons_self i rest)
    obtain ⟨fr, fsz, fwf, froots, fisroot⟩ := ufFind_size_spec q i hqwf hilt
    rw [List.foldl_cons]
    dsimp only
    rw [fr, hqroots]
    obtain ⟨ih1, ih2, ih3, ih4, ih5⟩ := ih
      (fun j hj => hval j (List.mem_cons_of_mem i hj))
      (if ufRoot p i = rootT then acc ++ [i] else acc)
      (ufFind q.size q i).2 fwf (by rw [fsz, hqsz])
      (fun y => by rw [froots, hqroots])
      (fun z => by rw [fisroot, hqisroot])
    refine ⟨?_, ih2, ih3, ih4, ih5⟩
    rw [ih1, List.filter_cons]
    by_cases hc : ufRoot p i = rootT
    · rw [if_pos hc, if_pos (by simpa using hc)]
      simp
    · rw [if_neg hc, if_neg (by simpa using hc)]

/-- The filtration fold agrees with the claim's reference description. -/
theorem ph_fold_spec (n : Nat) (maxS : ℚ) (birthTime : Array ℚ)
    (hbt : ∀ i, i < n → birthTime.getD i 0 = 0) :
    ∀ (l : List Connection) (acc : List Barcode) (p : Array Nat)
      (m : Nat → Nat),
      UFWF p → p.size = n → (∀ y, y < n → ufRoot p y = m y) →
      (∀ c ∈ l, c.source < n ∧ c.target < n) →
      (l.foldl (phStep n maxS birthTime) (acc, p)).1 =
        acc ++ phSpec n maxS l m [] := by
  intro l
  induction l with
  | nil =>
    intro acc p m _ _ _ _
    simp [phSpec]
  | cons c rest ih =>
    intro acc p m hwf hsz hroots hval
    have hc := hval c (List.mem_cons_self c rest)
    have hs : c.source < p.size := by rw [hsz]; exact hc.1
    have ht : c.target < p.size := by rw [hsz]; exact hc.2
    obtain ⟨f1r, f1sz, f1wf, f1roots, f1isroot⟩ :=
      ufFind_size_spec p c.source hwf hs
    have htp1 : c.target < (ufFind p.size p c.source).2.size := by
      rw [f1sz]; exact ht
    obtain ⟨f2r, f2sz, f2wf, f2roots, f2isroot⟩ :=
      ufFind_size_spec (ufFind p.size p c.source).2 c.target f1wf htp1
    have hrs : (ufFind p.size p c.source).1 = m c.source := by
      rw [f1r, hroots c.source hc.1]
    have hrt : (ufFind (ufFind p.size p c.source).2.size
        (ufFind p.size p c.source).2 c.target).1 = m c.target := by
      rw [f2r, f1roots, hroots c.target hc.2]
    have hvalr : ∀ d ∈ rest, d.source < n ∧ d.target < n :=
      fun d hd => hval d (List.mem_cons_of_mem c hd)
    rw [List.foldl_cons]
    simp only [phStep]
    rw [hrs, hrt]
    by_cases hmerge : m c.source = m c.target
    · -- no merge: same roots
      rw [if_neg (show ¬(m c.source ≠ m c.target) from fun hne => hne hmerge)]
      rw [ih acc _ m f2wf (by rw [f2sz, f1sz, hsz])
        (fun y hy => by rw [f2roots, f1roots, hroots y hy]) hvalr]
      have hspec : phSpec n maxS (c :: rest) m [] =
          phSpec n maxS rest m [] := by
        simp only [phSpec]
        rw [if_neg (fun hne => hne hmerge)]
      rw [hspec]
    · -- merge: record (maybe) and union
      rw [if_pos (show m c.source ≠ m c.target from hmerge)]
      have hmtlt : m c.target < n := by
        rw [← hroots c.target hc.2, ← hsz]
        exact ufRoot_lt hwf ht
      have hmslt : m c.source < n := by
        rw [← hroots c.source hc.1, ← hsz]
        exact ufRoot_lt hwf hs
      obtain ⟨hcoll, hcwf, hcsz, hcroots, hcisroot⟩ :=
        phCollect_spec n (m c.target)
          (ufFind (ufFind p.size p c.source).2.size
            (ufFind p.size p c.source).2 c.target).2 f2wf
          (by rw [f2sz, f1sz, hsz])
      have hfilter : (phCollect n (m c.target)
          (ufFind (ufFind p.size p c.source).2.size
            (ufFind p.size p c.source).2 c.target).2).1 =
          (List.range n).filter (fun i => m i = m c.target) := by
        rw [hcoll]
        apply List.filter_congr
        intro i hi
        simp only [decide_eq_decide]
        rw [f2roots, f1roots, hroots i (List.mem_range.mp hi)]
      have hrtroot : IsRoot (phCollect n (m c.target)
          (ufFind (ufFind p.size p c.source).2.size
            (ufFind p.size p c.source).2 c.target).2).2 (m c.target) := by
        rw [hcisroot, f2isroot, f1isroot, ← hroots c.target hc.2]
        exact isRoot_ufRoot hwf ht
      have hrsroot : IsRoot (phCollect n (m c.target)
          (ufFind (ufFind p.size p c.source).2.size
            (ufFind p.size p c.source).2 c.target).2).2 (m c.source) := by
        rw [hcisroot, f2isroot, f1isroot, ← hroots c.source hc.1]
        exact isRoot_ufRoot hwf hs
      obtain ⟨husz, huwf, huroots⟩ := uf_union_spec hcwf
        (by rw [hcsz]; exact hmtlt) (by rw [hcsz]; exact hmslt)
        hrtroot hrsroot (fun h => hmerge h.symm)
      have hnewsz : (((phCollect n (m c.target)
          (ufFind (ufFind p.size p c.source).2.size
            (ufFind p.size p c.source).2 c.target).2).2).setD
          (m c.target) (m c.source)).size = n := by
        rw [husz, hcsz]
      have hnewroots : ∀ y, y < n →
          ufRoot (((phCollect n (m c.target)
            (ufFind (ufFind p.size p c.source).2.size
              (ufFind p.size p c.source).2 c.target).2).2).setD
            (m c.target) (m c.source)) y =
          (fun y => if m y = m c.target then m c.source else m y) y := by
        intro y hy
        rw [huroots y]
        dsimp only
        rw [hcroots, f2roots, f1roots, hroots y hy]
      rw [show birthTime.getD (m c.target) 0 = 0 from hbt (m c.target) hmtlt]
      rw [hfilter]
      rw [ih _ _ (fun y => if m y = m c.target then m c.source else m y)
        huwf hnewsz hnewroots hvalr]
      have hspec : phSpec n maxS (c :: rest) m [] =
          (if 1 < ((List.range n).filter
              (fun i => m i = m c.target)).length then
            [{ dimension := 0, birth := 0, death := maxS - c.strength,
               residents := (List.range n).filter
                 (fun i => m i = m c.target) }] else []) ++
            phSpec n maxS rest
              (fun y => if m y = m c.target then m c.source else m y) [] := by
        simp only [phSpec]
        rw [if_pos (show m c.source ≠ m c.target from hmerge)]
        rfl
      rw [hspec]
      by_cases hlen : 1 < ((List.range n).filter
          (fun i => m i = m c.target)).length
      · rw [if_pos hlen, if_pos hlen, List.append_assoc]
      · rw [if_neg hlen, if_neg hlen, List.nil_append]

/-- Every edge strength is bounded by the head strength of a descending
list. -/
theorem phMaxStrength_ub (sorted : List Connection)
    (hsorted : SortedDescStrength sorted) :
    ∀ c ∈ sorted, c.strength ≤ phMaxStrength sorted := by
  cases sorted with
  | nil =>
    intro c hc
    exact absurd hc (List.not_mem_nil c)
  | cons d rest =>
    intro c hc
    rcases List.mem_cons.mp hc with rfl | hmem
    · exact le_refl _
    · exact (List.pairwise_cons.mp hsorted).1 c hmem

/-- A plain edge used by the persistence fixture. -/
def phConn (i s t : Nat) (str : ℚ) : Connection :=
  { id := i
    source := s
    target := t
    type := ConnectionType.SHARED_CLASS
    strength := str
    isBridgeEdge := false
    touches := ∅ }

/-- Persistence fixture: four members, three edges already in descending
strength order; the last edge merges the two-member component `{2, 3}`. -/
def gPH : CommunityGraph :=
  { residents := [{ id := 0 }, { id := 1 }, { id := 2 }, { id := 3 }]
    connections := [phConn 0 0 1 5, phConn 1 2 3 4, phConn 2 0 2 3] }

/-- C9: over any descending-strength ordering of the graph's edges (the
`std::sort` filtration order), `PersistentHomology::compute` records a
barcode exactly when two distinct components merge and the absorbed
component has more than one member; the death value is the maximum observed
strength minus the merging edge's strength (so every death is the maximum
minus a strength bounded by it), and the birth is the minimum filtration
value previously recorded for the absorbed root — nothing is ever recorded,
so it is the default 0. -/
theorem persistence_barcode_spec (G : CommunityGraph)
    (sorted : List Connection) (hperm : sorted.Perm G.connections)
    (hsorted : SortedDescStrength sorted)
    (hval : ∀ c ∈ G.connections,
      c.source < G.residents.length ∧ c.target < G.residents.length) :
    phComputeSorted G.residents.length sorted =
      phSpec G.residents.length (phMaxStrength sorted) sorted
        (fun i => i) [] ∧
    ∀ c ∈ sorted, c.strength ≤ phMaxStrength sorted := by
  constructor
  · have hval2 : ∀ c ∈ sorted,
        c.source < G.residents.length ∧ c.target < G.residents.length :=
      fun c hc => hval c (hperm.mem_iff.mp hc)
    have hbt0 : ∀ i, i < G.residents.length →
        (Array.mkArray G.residents.length (0 : ℚ)).getD i 0 = 0 := by
      intro i hi
      simp [Array.getD, hi]
    have h := ph_fold_spec G.residents.length (phMaxStrength sorted)
      (Array.mkArray G.residents.length 0) hbt0 sorted []
      (ufInit G.residents.length) (fun i => i)
      (ufInit_wf G.residents.length) (size_ufInit G.residents.length)
      (fun y hy => ufRoot_ufInit G.residents.length y) hval2
    rw [List.nil_append] at h
    exact h
  · exact phMaxStrength_ub sorted hsorted

/-- C9 witness: the fixture run records exactly one barcode, for the
absorbed two-member class, with death `5 - 3 = 2` and birth `0`. -/
theorem persistence_barcode_spec_witness :
    (gPH.connections.Perm gPH.connections ∧
      SortedDescStrength gPH.connections ∧
      (∀ c ∈ gPH.connections,
        c.source < gPH.residents.length ∧
        c.target < gPH.residents.length)) ∧
    (phComputeSorted gPH.residents.length gPH.connections =
        phSpec gPH.residents.length (phMaxStrength gPH.connections)
          gPH.connections (fun i => i) [] ∧
      ∀ c ∈ gPH.connections, c.strength ≤ phMaxStrength gPH.connections) ∧
    phComputeSorted gPH.residents.length gPH.connections =
      [{ dimension := 0, birth := 0, death := 2, residents := [2, 3] }] :=
  ⟨⟨List.Perm.refl _, by with_unfolding_all decide,
      by with_unfolding_all decide⟩,
    persistence_barcode_spec gPH gPH.connections (List.Perm.refl _)
      (by with_unfolding_all decide) (by with_unfolding_all decide),
    by with_unfolding_all decide⟩

/-! ## Claim C6: totality of the positional accesses -/

theorem option_some_bind {α β : Type} (a : α) (f : α → Option β) :
    (some a >>= f) = f a := rfl

theorem option_pure_bind {α β : Type} (a : α) (f : α → Option β) :
    (pure a >>= f) = f a := rfl

theorem array_get?_eq {a : Array ℚ} {i : Nat} (h : i < a.size) :
    a.get? i = some (a.getD i 0) := by
  simp [Array.get?, Array.getD, h]

theorem list_get?_eq {α : Type} [Inhabited α] {l : List α} {i : Nat}
    (h : i < l.length) : l.get? i = some (l.getD i default) := by
  simp [List.getD_eq_getElem?_getD, List.get?_eq_getElem?,
    List.getElem?_eq_getElem, h]

/-- Under well-formedness the checked `find` never fails and agrees with
the unchecked one. -/
theorem ufFindChecked_eq (fuel : Nat) :
    ∀ (p : Array Nat) (x : Nat), UFWF p → x < p.size →
      ufFindChecked fuel p x = some (ufFind fuel p x) := by
  induction fuel with
  | zero =>
    intro p x _ hx
    unfold ufFindChecked ufFind
    rw [if_pos hx]
  | succ fuel ih =>
    intro p x hwf hx
    unfold ufFindChecked ufFind
    rw [if_pos hx]
    by_cases hroot : ufStep p x = x
    · rw [if_pos hroot, if_pos hroot]
    · rw [if_neg hroot, if_neg hroot, ih p (ufStep p x) hwf (hwf x hx).1]

/-- The checked union fold of `h0` never fails and computes the unchecked
fold. -/
theorem uf_union_foldM_eq (n : Nat) :
    ∀ (edges : List (Nat × Nat)) (p : Array Nat),
      UFWF p → p.size = n → (∀ e ∈ edges, e.1 < n ∧ e.2 < n) →
      edges.foldlM
        (fun (p : Array Nat) (e : Nat × Nat) => do
          let f1 ← ufFindChecked p.size p e.1
          let f2 ← ufFindChecked f1.2.size f1.2 e.2
          pure (f2.2.setD f1.1 f2.1)) p =
        some (edges.foldl ufUnionEdge p) := by
  intro edges
  induction edges with
  | nil =>
    intro p _ _ _
    rfl
  | cons e rest ih =>
    intro p hwf hsz hval
    have he := hval e (List.mem_cons_self e rest)
    have h1 : e.1 < p.size := by rw [hsz]; exact he.1
    have h2p : e.2 < p.size := by rw [hsz]; exact he.2
    obtain ⟨f1r, f1sz, f1wf, f1roots, f1isroot⟩ :=
      ufFind_size_spec p e.1 hwf h1
    have h2 : e.2 < (ufFind p.size p e.1).2.size := by
      rw [f1sz]; exact h2p
    obtain ⟨husz, huwf, _⟩ := ufUnionEdge_spec p e hwf h1 h2p
    simp only [List.foldlM_cons]
    rw [ufFindChecked_eq p.size p e.1 hwf h1]
    simp only [option_pure_bind, option_some_bind]
    rw [ufFindChecked_eq (ufFind p.size p e.1).2.size (ufFind p.size p e.1).2
      e.2 f1wf h2]
    simp only [option_pure_bind, option_some_bind]
    rw [ih ((ufFind (ufFind p.size p e.1).2.size (ufFind p.size p e.1).2
        e.2).2.setD (ufFind p.size p e.1).1
        (ufFind (ufFind p.size p e.1).2.size (ufFind p.size p e.1).2 e.2).1)
      huwf (husz.trans hsz)
      (fun e2 he2 => hval e2 (List.mem_cons_of_mem e he2))]
    rw [List.foldl_cons]
    rfl

/-- The checked root-counting loop of `h0` never fails. -/
theorem uf_count_foldM_eq (n : Nat) :
    ∀ (l : List Nat), (∀ i ∈ l, i < n) →
      ∀ (acc : Finset Nat) (p : Array Nat), UFWF p → p.size = n →
      l.foldlM
        (fun (acc : Finset Nat × Array Nat) i => do
          let f ← ufFindChecked acc.2.size acc.2 i
          pure (insert f.1 acc.1, f.2)) (acc, p) =
        some (l.foldl
          (fun (acc : Finset Nat × Array Nat) i =>
            let f := ufFind acc.2.size acc.2 i
            (insert f.1 acc.1, f.2)) (acc, p)) := by
  intro l
  induction l with
  | nil =>
    intro _ acc p _ _
    rfl
  | cons i rest ih =>
    intro hval acc p hwf hsz
    have hilt : i < p.size := by
      rw [hsz]; exact hval i (List.mem_cons_self i rest)
    obtain ⟨fr, fsz, fwf, froots, fisroot⟩ := ufFind_size_spec p i hwf hilt
    simp only [List.foldlM_cons]
    rw [ufFindChecked_eq p.size p i hwf hilt]
    simp only [option_pure_bind, option_some_bind]
    rw [ih (fun j hj => hval j (List.mem_cons_of_mem i hj))
      (insert (ufFind p.size p i).1 acc) (ufFind p.size p i).2 fwf
      (fsz.trans hsz)]
    rw [List.foldl_cons]

/-- The checked `h0` never fails and agrees with the unchecked `h0`. -/
theorem ufH0Checked_eq (n : Nat) (edges : List (Nat × Nat))
    (hval : ∀ e ∈ edges, e.1 < n ∧ e.2 < n) :
    ufH0Checked n edges = some (ufH0 n edges) := by
  by_cases hn : n = 0
  · subst hn
    unfold ufH0Checked ufH0
    rw [if_pos rfl, if_pos rfl]
  · unfold ufH0Checked ufH0
    rw [if_neg hn, if_neg hn]
    have hinv := forestScan_fold_invariant n edges (0, ufInit n)
      (ufInit_wf n) (size_ufInit n) hval
    have hwfE : UFWF (edges.foldl ufUnionEdge (ufInit n)) := by
      rw [← forestScan_snd]
      exact hinv.1
    have hszE : (edges.foldl ufUnionEdge (ufInit n)).size = n := by
      rw [← forestScan_snd]
      exact hinv.2.1
    rw [uf_union_foldM_eq n edges (ufInit n) (ufInit_wf n)
      (size_ufInit n) hval]
    simp only [option_pure_bind, option_some_bind]
    rw [uf_count_foldM_eq n (List.range n) (fun i hi => List.mem_range.mp hi)
      ∅ (edges.foldl ufUnionEdge (ufInit n)) hwfE hszE]
    simp only [option_pure_bind, option_some_bind]
    rfl

/-- A `mapM` over `Option` with pointwise `some` values is the plain map. -/
theorem mapM_eq_map {α β : Type} (f : α → Option β) (g : α → β) :
    ∀ (l : List α), (∀ a ∈ l, f a = some (g a)) →
      l.mapM f = some (l.map g) := by
  intro l
  induction l with
  | nil =>
    intro _
    rfl
  | cons a rest ih =>
    intro h
    rw [List.mapM_cons, h a (List.mem_cons_self a rest),
      ih (fun b hb => h b (List.mem_cons_of_mem a hb))]
    rfl

/-- The checked neighbour-subcommunity union never fails when adjacency
entries are in range. -/
theorem neighborSubs_foldM_eq (G : CommunityGraph) (v : Nat)
    (hadj : ∀ j ∈ G.adj v, j < G.residents.length) :
    (G.adj v).foldlM
      (fun (acc : Finset String) nid => do
        let m ← G.residents.get? nid
        pure (acc ∪ m.subcommunities)) (∅ : Finset String) =
      some (neighborSubsAcc G v) := by
  unfold neighborSubsAcc
  suffices h : ∀ (l : List Nat), (∀ j ∈ l, j < G.residents.length) →
      ∀ (acc : Finset String),
      l.foldlM (fun (acc : Finset String) nid => do
        let m ← G.residents.get? nid
        pure (acc ∪ m.subcommunities)) acc =
      some (l.foldl
        (fun acc nid => acc ∪ (G.residents.getD nid default).subcommunities)
        acc) by
    exact h (G.adj v) hadj ∅
  intro l
  induction l with
  | nil =>
    intro _ acc
    rfl
  | cons j rest ih =>
    intro hval acc
    simp only [List.foldlM_cons]
    rw [list_get?_eq (hval j (List.mem_cons_self j rest))]
    simp only [option_pure_bind, option_some_bind]
    rw [ih (fun k hk => hval k (List.mem_cons_of_mem j hk))]
    rw [List.foldl_cons]

/-- The checked `compute_bridges` never fails when adjacency entries are in
range, and returns the unchecked resident list. -/
theorem computeBridgesChecked_eq (G : CommunityGraph)
    (hadj : ∀ i, ∀ j ∈ G.adj i, j < G.residents.length) :
    computeBridgesChecked G = some ((computeBridges G).residents) := by
  unfold computeBridgesChecked computeBridges
  apply mapM_eq_map
  intro r hr
  by_cases hcard : r.subcommunities.card < 2
  · rw [if_pos hcard, if_pos hcard]
  · rw [if_neg hcard, if_neg hcard]
    rw [neighborSubs_foldM_eq G r.id (hadj r.id)]
    rfl

/-- The checked dying-component collection never fails. -/
theorem phCollectChecked_eq (n : Nat) (rootT : Nat) :
    ∀ (p : Array Nat), UFWF p → p.size = n →
      phCollectChecked n rootT p = some (phCollect n rootT p) := by
  suffices h : ∀ (l : List Nat), (∀ i ∈ l, i < n) →
      ∀ (acc : List Nat) (q : Array Nat), UFWF q → q.size = n →
      l.foldlM
        (fun (acc : List Nat × Array Nat) i => do
          let f ← ufFindChecked acc.2.size acc.2 i
          pure ((if f.1 = rootT then acc.1 ++ [i] else acc.1), f.2))
        (acc, q) =
      some (l.foldl
        (fun (acc : List Nat × Array Nat) i =>
          let f := ufFind acc.2.size acc.2 i
          (if f.1 = rootT then acc.1 ++ [i] else acc.1, f.2)) (acc, q)) by
    intro p hwf hsz
    exact h (List.range n) (fun i hi => List.mem_range.mp hi) [] p hwf hsz
  intro l
  induction l with
  | nil =>
    intro _ acc q _ _
    rfl
  | cons i rest ih =>
    intro hval acc q hwf hsz
    have hilt : i < q.size := by
      rw [hsz]; exact hval i (List.mem_cons_self i rest)
    obtain ⟨fr, fsz, fwf, froots, fisroot⟩ := ufFind_size_spec q i hwf hilt
    simp only [List.foldlM_cons]
    rw [ufFindChecked_eq q.size q i hwf hilt]
    simp only [option_pure_bind, option_some_bind]
    rw [ih (fun j hj => hval j (List.mem_cons_of_mem i hj))
      (if (ufFind q.size q i).1 = rootT then acc ++ [i] else acc)
      (ufFind q.size q i).2 fwf (fsz.trans hsz)]
    rw [List.foldl_cons]

/-- The checked filtration fold never fails and computes the unchecked
fold. -/
theorem ph_foldM_eq (n : Nat) (maxS : ℚ) (birthTime : Array ℚ)
    (hbtsz : birthTime.size = n) :
    ∀ (l : List Connection) (st : List Barcode × Array Nat),
      UFWF st.2 → st.2.size = n → (∀ c ∈ l, c.source < n ∧ c.target < n) →
      l.foldlM
        (fun (st : List Barcode × Array Nat) (c : Connection) => do
          let f1 ← ufFindChecked st.2.size st.2 c.source
          let f2 ← ufFindChecked f1.2.size f1.2 c.target
          if f1.1 ≠ f2.1 then do
            let coll ← phCollectChecked n f2.1 f2.2
            let bt ← birthTime.get? f2.1
            let b : Barcode :=
              { dimension := 0
                birth := bt
                death := maxS - c.strength
                residents := coll.1 }
            pure ((if 1 < b.residents.length then st.1 ++ [b] else st.1),
              coll.2.setD f2.1 f1.1)
          else pure (st.1, f2.2)) st =
      some (l.foldl (phStep n maxS birthTime) st) := by
  intro l
  induction l with
  | nil =>
    intro st _ _ _
    rfl
  | cons c rest ih =>
    intro st hwf hsz hval
    have hc := hval c (List.mem_cons_self c rest)
    have hvalr : ∀ d ∈ rest, d.source < n ∧ d.target < n :=
      fun d hd => hval d (List.mem_cons_of_mem c hd)
    have hs : c.source < st.2.size := by rw [hsz]; exact hc.1
    have ht2 : c.target < st.2.size := by rw [hsz]; exact hc.2
    obtain ⟨f1r, f1sz, f1wf, f1roots, f1isroot⟩ :=
      ufFind_size_spec st.2 c.source hwf hs
    have ht : c.target < (ufFind st.2.size st.2 c.source).2.size := by
      rw [f1sz]; exact ht2
    obtain ⟨f2r, f2sz, f2wf, f2roots, f2isroot⟩ :=
      ufFind_size_spec (ufFind st.2.size st.2 c.source).2 c.target f1wf ht
    simp only [List.foldlM_cons]
    rw [ufFindChecked_eq st.2.size st.2 c.source hwf hs]
    simp only [option_pure_bind, option_some_bind]
    rw [ufFindChecked_eq (ufFind st.2.size st.2 c.source).2.size
      (ufFind st.2.size st.2 c.source).2 c.target f1wf ht]
    simp only [option_pure_bind, option_some_bind]
    by_cases hne : (ufFind st.2.size st.2 c.source).1 =
        (ufFind (ufFind st.2.size st.2 c.source).2.size
          (ufFind st.2.size st.2 c.source).2 c.target).1
    · -- equal roots
      rw [if_neg (show ¬((ufFind st.2.size st.2 c.source).1 ≠
          (ufFind (ufFind st.2.size st.2 c.source).2.size
            (ufFind st.2.size st.2 c.source).2 c.target).1)
        from fun hx => hx hne)]
      simp only [option_pure_bind, option_some_bind]
      have hstep : phStep n maxS birthTime st c =
          (st.1, (ufFind (ufFind st.2.size st.2 c.source).2.size
            (ufFind st.2.size st.2 c.source).2 c.target).2) := by
        simp only [phStep]
        rw [if_neg (show ¬((ufFind st.2.size st.2 c.source).1 ≠
            (ufFind (ufFind st.2.size st.2 c.source).2.size
              (ufFind st.2.size st.2 c.source).2 c.target).1)
          from fun hx => hx hne)]
      rw [List.foldl_cons, hstep]
      exact ih (st.1, (ufFind (ufFind st.2.size st.2 c.source).2.size
          (ufFind st.2.size st.2 c.source).2 c.target).2) f2wf
        (f2sz.trans (f1sz.trans hsz)) hvalr
    · -- distinct roots: record and union
      rw [if_pos hne]
      obtain ⟨hcoll, hcwf, hcsz, hcroots, hcisroot⟩ :=
        phCollect_spec n (ufFind (ufFind st.2.size st.2 c.source).2.size
            (ufFind st.2.size st.2 c.source).2 c.target).1
          (ufFind (ufFind st.2.size st.2 c.source).2.size
            (ufFind st.2.size st.2 c.source).2 c.target).2 f2wf
          (f2sz.trans (f1sz.trans hsz))
      rw [phCollectChecked_eq n (ufFind (ufFind st.2.size st.2 c.source).2.size
          (ufFind st.2.size st.2 c.source).2 c.target).1
        (ufFind (ufFind st.2.size st.2 c.source).2.size
          (ufFind st.2.size st.2 c.source).2 c.target).2 f2wf
        (f2sz.trans (f1sz.trans hsz))]
      simp only [option_pure_bind, option_some_bind]
      have hf2ltn : (ufFind (ufFind st.2.size st.2 c.source).2.size
          (ufFind st.2.size st.2 c.source).2 c.target).1 < n := by
        rw [f2r, f1roots, ← hsz]
        exact ufRoot_lt hwf ht2
      rw [array_get?_eq (show (ufFind (ufFind st.2.size st.2 c.source).2.size
          (ufFind st.2.size st.2 c.source).2 c.target).1 < birthTime.size
        from by rw [hbtsz]; exact hf2ltn)]
      simp only [option_pure_bind, option_some_bind]
      have hf1ltn : (ufFind st.2.size st.2 c.source).1 < n := by
        rw [f1r, ← hsz]
        exact ufRoot_lt hwf hs
      have hf1root : IsRoot (phCollect n
          (ufFind (ufFind st.2.size st.2 c.source).2.size
            (ufFind st.2.size st.2 c.source).2 c.target).1
          (ufFind (ufFind st.2.size st.2 c.source).2.size
            (ufFind st.2.size st.2 c.source).2 c.target).2).2
          (ufFind st.2.size st.2 c.source).1 := by
        rw [hcisroot, f2isroot, f1isroot, f1r]
        exact isRoot_ufRoot hwf hs
      have hf2root : IsRoot (phCollect n
          (ufFind (ufFind st.2.size st.2 c.source).2.size
            (ufFind st.2.size st.2 c.source).2 c.target).1
          (ufFind (ufFind st.2.size st.2 c.source).2.size
            (ufFind st.2.size st.2 c.source).2 c.target).2).2
          (ufFind (ufFind st.2.size st.2 c.source).2.size
            (ufFind st.2.size st.2 c.source).2 c.target).1 := by
        rw [hcisroot, f2isroot, f1isroot, f2r, f1roots]
        exact isRoot_ufRoot hwf ht2
      obtain ⟨husz, huwf, _⟩ := uf_union_spec hcwf
        (by rw [hcsz]; exact hf2ltn) (by rw [hcsz]; exact hf1ltn)
        hf2root hf1root (fun hx => hne hx.symm)
      have hstep : phStep n maxS birthTime st c =
          (if 1 < (phCollect n (ufFind (ufFind st.2.size st.2 c.source).2.size
              (ufFind st.2.size st.2 c.source).2 c.target).1
              (ufFind (ufFind st.2.size st.2 c.source).2.size
                (ufFind st.2.size st.2 c.source).2 c.target).2).1.length then
            st.1 ++ [{ dimension := 0
                       birth := birthTime.getD
                         (ufFind (ufFind st.2.size st.2 c.source).2.size
                           (ufFind st.2.size st.2 c.source).2 c.target).1 0
                       death := maxS - c.strength
                       residents := (phCollect n
                         (ufFind (ufFind st.2.size st.2 c.source).2.size
                           (ufFind st.2.size st.2 c.source).2 c.target).1
                         (ufFind (ufFind st.2.size st.2 c.source).2.size
                           (ufFind st.2.size st.2 c.source).2
                           c.target).2).1 }]
            else st.1,
          (phCollect n (ufFind (ufFind st.2.size st.2 c.source).2.size
              (ufFind st.2.size st.2 c.source).2 c.target).1
            (ufFind (ufFind st.2.size st.2 c.source).2.size
              (ufFind st.2.size st.2 c.source).2 c.target).2).2.setD
            (ufFind (ufFind st.2.size st.2 c.source).2.size
              (ufFind st.2.size st.2 c.source).2 c.target).1
            (ufFind st.2.size st.2 c.source).1) := by
        simp only [phStep]
        rw [if_pos hne]
      rw [List.foldl_cons, hstep]
      exact ih
        (if 1 < (phCollect n (ufFind (ufFind st.2.size st.2 c.source).2.size
            (ufFind st.2.size st.2 c.source).2 c.target).1
            (ufFind (ufFind st.2.size st.2 c.source).2.size
              (ufFind st.2.size st.2 c.source).2 c.target).2).1.length then
          st.1 ++ [{ dimension := 0
                     birth := birthTime.getD
                       (ufFind (ufFind st.2.size st.2 c.source).2.size
                         (ufFind st.2.size st.2 c.source).2 c.target).1 0
                     death := maxS - c.strength
                     residents := (phCollect n
                       (ufFind (ufFind st.2.size st.2 c.source).2.size
                         (ufFind st.2.size st.2 c.source).2 c.target).1
                       (ufFind (ufFind st.2.size st.2 c.source).2.size
                         (ufFind st.2.size st.2 c.source).2
                         c.target).2).1 }]
          else st.1,
        (phCollect n (ufFind (ufFind st.2.size st.2 c.source).2.size
            (ufFind st.2.size st.2 c.source).2 c.target).1
          (ufFind (ufFind st.2.size st.2 c.source).2.size
            (ufFind st.2.size st.2 c.source).2 c.target).2).2.setD
          (ufFind (ufFind st.2.size st.2 c.source).2.size
            (ufFind st.2.size st.2 c.source).2 c.target).1
          (ufFind st.2.size st.2 c.source).1)
        huwf (husz.trans hcsz) hvalr

/-- The checked persistence computation never fails and agrees with the
unchecked one. -/
theorem phComputeChecked_eq (n : Nat) (sorted : List Connection)
    (hval : ∀ c ∈ sorted, c.source < n ∧ c.target < n) :
    phComputeChecked n sorted = some (phComputeSorted n sorted) := by
  simp only [phComputeChecked, phComputeSorted]
  rw [ph_foldM_eq n (phMaxStrength sorted) (Array.mkArray n 0)
    (Array.size_mkArray n 0) sorted (([] : List Barcode), ufInit n)
    (ufInit_wf n) (size_ufInit n) hval]
  rfl

/-- A monadic fold over `Option` whose every step succeeds succeeds. -/
theorem foldlM_isSome {α β : Type} (f : β → α → Option β) :
    ∀ (l : List α) (b : β), (∀ b2 a, a ∈ l → (f b2 a).isSome) →
      (l.foldlM f b).isSome := by
  intro l
  induction l with
  | nil =>
    intro b _
    rfl
  | cons a rest ih =>
    intro b h
    simp only [List.foldlM_cons]
    obtain ⟨b2, hb2⟩ := Option.isSome_iff_exists.mp
      (h b a (List.mem_cons_self a rest))
    rw [hb2]
    simp only [option_pure_bind, option_some_bind]
    exact ih b2 (fun b3 a2 ha2 => h b3 a2 (List.mem_cons_of_mem a ha2))

/-- The per-resident hole scan never fails when hole members are in
range. -/
theorem holeScanResident_isSome (G : CommunityGraph) (hole : List Nat)
    (r : Resident) (hh : ∀ v ∈ hole, v < G.residents.length) :
    (holeScanResident G hole r).isSome := by
  unfold holeScanResident
  apply foldlM_isSome
  intro acc v hv
  rw [list_get?_eq (hh v hv)]
  simp only [option_pure_bind, option_some_bind]
  rfl

/-- The search for an introducible outsider never fails when hole members
are in range. -/
theorem holeIntro_isSome (G : CommunityGraph) (hole : List Nat)
    (hh : ∀ v ∈ hole, v < G.residents.length) :
    ∀ (l : List Resident), (holeIntro G hole l).isSome := by
  intro l
  induction l with
  | nil => rfl
  | cons r rest ih =>
    unfold holeIntro
    by_cases hmem : hole.contains r.id
    · rw [if_pos hmem]
      exact ih
    · rw [if_neg hmem]
      obtain ⟨sc, hsc⟩ := Option.isSome_iff_exists.mp
        (holeScanResident_isSome G hole r hh)
      rw [hsc]
      simp only [option_pure_bind, option_some_bind]
      by_cases h2 : 2 ≤ sc.1
      · rw [if_pos h2]
        cases hsc2 : sc.2 with
        | some ct => rfl
        | none => exact ih
      · rw [if_neg h2]
        exact ih

/-- The checked `compute_introductions` never fails when isolated ids and
hole members are in range. -/
theorem computeIntroductionsChecked_isSome (G : CommunityGraph)
    (holes : List (List Nat)) (isolated : List Nat)
    (hholes : ∀ h ∈ holes, ∀ v ∈ h, v < G.residents.length)
    (hiso : ∀ i ∈ isolated, i < G.residents.length) :
    (computeIntroductionsChecked G holes isolated).isSome := by
  unfold computeIntroductionsChecked
  have hstep1 : ∀ (acc : List (Nat × Nat)) (i : Nat), i ∈ isolated →
      ((do
        let iso ← G.residents.get? i
        match G.residents.find? (fun r =>
            decide (r.id ≠ i) &&
            !(decide ((1 : ℚ) / 2 < r.boundaryScore)) &&
            (hasSharedClassList iso.classes r.classes ||
              decide ((iso.interests ∩ r.interests).Nonempty))) with
        | some r => pure (acc ++ [(i, r.id)])
        | none => pure acc) : Option (List (Nat × Nat))).isSome := by
    intro acc i hi
    rw [list_get?_eq (hiso i hi)]
    simp only [option_pure_bind, option_some_bind]
    split
    · rfl
    · rfl
  obtain ⟨intros1, hintros⟩ := Option.isSome_iff_exists.mp
    (foldlM_isSome
      (fun (acc : List (Nat × Nat)) isoId => do
        let iso ← G.residents.get? isoId
        match G.residents.find? (fun r =>
            decide (r.id ≠ isoId) &&
            !(decide ((1 : ℚ) / 2 < r.boundaryScore)) &&
            (hasSharedClassList iso.classes r.classes ||
              decide ((iso.interests ∩ r.interests).Nonempty))) with
        | some r => pure (acc ++ [(isoId, r.id)])
        | none => pure acc)
      isolated [] hstep1)
  rw [hintros]
  simp only [option_pure_bind, option_some_bind]
  apply foldlM_isSome
  intro acc hole hmem
  by_cases hlen : hole.length < 3
  · rw [if_pos hlen]
    rfl
  · rw [if_neg hlen]
    obtain ⟨v, hv⟩ := Option.isSome_iff_exists.mp
      (holeIntro_isSome G hole (hholes hole hmem) G.residents)
    rw [hv]
    simp only [option_pure_bind, option_some_bind]
    cases v with
    | some pr => rfl
    | none => rfl

/-- C6 fixture: canonical ids `0, 1, 2`, one edge, a three-member hole and
one isolated member. -/
def gC6 : CommunityGraph :=
  { residents := [{ id := 0 }, { id := 1 }, { id := 2 }]
    connections := [phConn 0 0 1 1] }

/-- C6 counter-fixture: unique but non-positional ids, as the spec's input
contract allows. -/
def gBad : CommunityGraph :=
  { residents := [{ id := 5 }, { id := 7 }]
    connections := [phConn 0 5 7 1] }

/-- C6: under the unstated precondition that member ids are exactly the
positions `0..n-1` in insertion order (`IdsCanonical`), every positional
access indexed by a member id is in bounds: the checked `h0`,
`compute_bridges`, persistence computation and `compute_introductions` all
succeed and agree with the total embeddings.  With ids that are merely
unique — all the spec's input contract requires — the very first
union-find access of `h0` is already out of bounds (`gBad`). -/
theorem canonical_ids_make_indexing_total (G : CommunityGraph)
    (hid : IdsCanonical G)
    (hconn : ∀ c ∈ G.connections,
      c.source ∈ G.residents.map (fun r => r.id) ∧
      c.target ∈ G.residents.map (fun r => r.id))
    (hadj : ∀ i, ∀ j ∈ G.adj i, j ∈ G.residents.map (fun r => r.id))
    (sorted : List Connection) (hperm : sorted.Perm G.connections)
    (holes : List (List Nat)) (isolated : List Nat)
    (hholes : ∀ h ∈ holes, ∀ v ∈ h, v ∈ G.residents.map (fun r => r.id))
    (hiso : ∀ i ∈ isolated, i ∈ G.residents.map (fun r => r.id)) :
    ufH0Checked G.residents.length (edgeList G) = some (graphH0 G) ∧
    computeBridgesChecked G = some ((computeBridges G).residents) ∧
    phComputeChecked G.residents.length sorted =
      some (phComputeSorted G.residents.length sorted) ∧
    (computeIntroductionsChecked G holes isolated).isSome ∧
    ((gBad.residents.map (fun r => r.id)).Nodup ∧
      (∀ c ∈ gBad.connections,
        c.source ∈ gBad.residents.map (fun r => r.id) ∧
        c.target ∈ gBad.residents.map (fun r => r.id)) ∧
      ufH0Checked gBad.residents.length (edgeList gBad) = none) := by
  have hlt : ∀ x, x ∈ G.residents.map (fun r => r.id) →
      x < G.residents.length := by
    intro x hx
    have hid2 : G.residents.map (fun r => r.id) =
        List.range G.residents.length := hid
    rw [hid2] at hx
    exact List.mem_range.mp hx
  refine ⟨?_, ?_, ?_, ?_, ?_, ?_, ?_⟩
  · apply ufH0Checked_eq
    intro e he
    obtain ⟨c, hc, hce⟩ := List.mem_map.mp he
    have hcb := hconn c hc
    rw [← hce]
    exact ⟨hlt _ hcb.1, hlt _ hcb.2⟩
  · exact computeBridgesChecked_eq G
      (fun i j hj => hlt j (hadj i j hj))
  · apply phComputeChecked_eq
    intro c hc
    have hcb := hconn c (hperm.mem_iff.mp hc)
    exact ⟨hlt _ hcb.1, hlt _ hcb.2⟩
  · exact computeIntroductionsChecked_isSome G holes isolated
      (fun h hmem v hv => hlt v (hholes h hmem v hv))
      (fun i hi => hlt i (hiso i hi))
  · with_unfolding_all decide
  · with_unfolding_all decide
  · with_unfolding_all decide

/-- C6 witness: the canonical three-member fixture satisfies every
precondition and all four checked operations succeed; in particular its
`h0` is `2`. -/
theorem canonical_ids_make_indexing_total_witness :
    (IdsCanonical gC6 ∧
      (∀ c ∈ gC6.connections,
        c.source ∈ gC6.residents.map (fun r => r.id) ∧
        c.target ∈ gC6.residents.map (fun r => r.id)) ∧
      (∀ h ∈ [[0, 1, 2]], ∀ v ∈ h,
        v ∈ gC6.residents.map (fun r => r.id)) ∧
      (∀ i ∈ [2], i ∈ gC6.residents.map (fun r => r.id))) ∧
    (ufH0Checked gC6.residents.length (edgeList gC6) =
        some (graphH0 gC6) ∧
      computeBridgesChecked gC6 = some ((computeBridges gC6).residents) ∧
      phComputeChecked gC6.residents.length gC6.connections =
        some (phComputeSorted gC6.residents.length gC6.connections) ∧
      (computeIntroductionsChecked gC6 [[0, 1, 2]] [2]).isSome ∧
      ((gBad.residents.map (fun r => r.id)).Nodup ∧
        (∀ c ∈ gBad.connections,
          c.source ∈ gBad.residents.map (fun r => r.id) ∧
          c.target ∈ gBad.residents.map (fun r => r.id)) ∧
        ufH0Checked gBad.residents.length (edgeList gBad) = none)) ∧
    graphH0 gC6 = 2 :=
  ⟨⟨by with_unfolding_all decide, by with_unfolding_all decide,
      by with_unfolding_all decide, by with_unfolding_all decide⟩,
    canonical_ids_make_indexing_total gC6 (by with_unfolding_all decide)
      (by with_unfolding_all decide)
      (fun i j hj => absurd hj (List.not_mem_nil j))
      gC6.connections (List.Perm.refl _) [[0, 1, 2]] [2]
      (by with_unfolding_all decide) (by with_unfolding_all decide),
    by with_unfolding_all decide⟩

end ResLife
